import Mathlib

/-!
Verification of the Haruki-Sekai-API regional game-client engine.

This file shallowly embeds the Rust sources (src/crypto/sekai_cryptor.rs,
src/client/helper.rs, src/client/nuverse.rs, src/client/sekai_client.rs,
src/error.rs) into Lean and proves the spec claims about them.

Modelling conventions:
* machine integers are `Nat`/`Int` with explicit bounds where overflow matters;
* `Result<T, AppError>` becomes `Except AppErr T`;
* byte buffers (`Vec<u8>`, `&[u8]`) become `List Nat` whose entries denote bytes;
* the AES-128 block primitive (the `aes` crate, a dependency, not repository
  code) is an abstract pair of 16-byte block maps `(encB, decB)`; the CBC
  chaining (`cbc` crate usage with `NoPadding`) is embedded concretely;
* MessagePack (the `rmp`/`rmpv` dependency) is embedded concretely for the
  nil/bool/integer/str/bin/array/map fragment the codec exchanges; the float
  and ext families are not modelled, and strings are carried as their UTF-8
  byte sequences.
-/

namespace Sekai

/-- The repository's `AppError` kinds that the verified components construct
(src/error.rs).  String payloads carry the same message text as the source. -/
inductive AppErr where
  | sessionError
  | cookieExpired
  | upgradeRequired
  | underMaintenance
  | noClientAvailable
  | invalidHttpStatus (code : Nat)
  | cryptoError (msg : String)
  | parseError (msg : String)
  | networkError (msg : String)
  | unknown (status : Nat) (body : String)
  deriving DecidableEq, Repr

/-! ### Big-endian byte strings -/

/-- `k`-byte big-endian representation of `n` (low bytes truncated mod 2^(8k)). -/
def beBytes : Nat → Nat → List Nat
  | 0, _ => []
  | k + 1, n => beBytes k (n / 256) ++ [n % 256]

/-- Read a big-endian byte string back into a number. -/
def fromBe (bs : List Nat) : Nat :=
  bs.foldl (fun acc b => acc * 256 + b) 0

/-! ### PKCS7 padding (src/crypto/sekai_cryptor.rs, `pkcs7_pad` / `pkcs7_unpad`)

The source is specialised to `block_size = 16` at every call site; the padding
length is `16 - data.len() % 16`. -/

/-- `pkcs7_pad(data, 16)`: append `padding_len` copies of `padding_len`,
where `padding_len = 16 - data.len() % 16`. -/
def pkcs7Pad (data : List Nat) : List Nat :=
  let paddingLen := 16 - data.length % 16
  data ++ List.replicate paddingLen paddingLen

/-- `pkcs7_unpad(data)`: validate and strip PKCS7 padding. -/
def pkcs7Unpad (data : List Nat) : Except AppErr (List Nat) :=
  if data.length = 0 then
    .error (.cryptoError "Empty data for unpadding")
  else
    let paddingLen := data.getLastD 0
    if paddingLen = 0 ∨ paddingLen > 16 ∨ paddingLen > data.length then
      .error (.cryptoError "Invalid PKCS7 padding")
    else if (data.drop (data.length - paddingLen)).all (fun b => b = paddingLen) then
      .ok (data.take (data.length - paddingLen))
    else
      .error (.cryptoError "Invalid PKCS7 padding bytes")

/-! ### XOR of byte strings and CBC chaining

`Aes128CbcEnc` / `Aes128CbcDec` (the `cbc` crate with `NoPadding`) implement
standard CBC over the AES-128 block permutation: `c_i = E(p_i XOR c_{i-1})`,
`p_i = D(c_i) XOR c_{i-1}`, with `c_0` chained from the IV.  The block
primitive is a dependency, so it enters the model as an abstract map on
16-byte blocks. -/

def xorBytes (a b : List Nat) : List Nat := List.zipWith (fun x y => x ^^^ y) a b

/-- Split a byte string into 16-byte blocks (last block may be short if the
input length is not a multiple of 16; all call sites guard against that). -/
def chunks16 (l : List Nat) : List (List Nat) :=
  if h : l = [] then [] else l.take 16 :: chunks16 (l.drop 16)
termination_by l.length
decreasing_by
  simp only [List.length_drop]
  have : 0 < l.length := List.length_pos.mpr h
  omega

/-- CBC encryption over an abstract block map `encB`, chaining from `prev`. -/
def cbcEncBlocks (encB : List Nat → List Nat) (prev : List Nat) :
    List (List Nat) → List (List Nat)
  | [] => []
  | p :: ps =>
      let c := encB (xorBytes p prev)
      c :: cbcEncBlocks encB c ps

/-- CBC decryption over an abstract block map `decB`, chaining from `prev`. -/
def cbcDecBlocks (decB : List Nat → List Nat) (prev : List Nat) :
    List (List Nat) → List (List Nat)
  | [] => []
  | c :: cs => xorBytes (decB c) prev :: cbcDecBlocks decB c cs

/-! ### MessagePack values (the `rmpv::Value` / `rmp_serde` dependency)

The codec serialises with `rmps::to_vec` / `rmps::from_slice` and
`rmpv::decode::read_value`; both use the standard MessagePack wire format
with minimal-width integer encodings.  The model covers the
nil/bool/integer/str/bin/array/map fragment (no float or ext families);
strings are carried as UTF-8 byte sequences. -/

inductive MsgValue where
  | nil
  | bool (b : Bool)
  | int (i : Int)
  | str (s : List Nat)
  | bin (b : List Nat)
  | arr (xs : List MsgValue)
  | map (ps : List (MsgValue × MsgValue))
  deriving Repr

/-- Minimal-width MessagePack integer encoding (`rmp::encode::write_sint` /
`write_uint`): positive values use the uint family, negative the int family. -/
def encodeInt (i : Int) : List Nat :=
  if 0 ≤ i then
    if i.toNat < 128 then [i.toNat]
    else if i.toNat < 256 then [0xcc, i.toNat]
    else if i.toNat < 65536 then 0xcd :: beBytes 2 i.toNat
    else if i.toNat < 4294967296 then 0xce :: beBytes 4 i.toNat
    else 0xcf :: beBytes 8 i.toNat
  else
    if -32 ≤ i then [(i + 256).toNat]
    else if -128 ≤ i then [0xd0, (i + 256).toNat]
    else if -32768 ≤ i then 0xd1 :: beBytes 2 (i + 65536).toNat
    else if -2147483648 ≤ i then 0xd2 :: beBytes 4 (i + 4294967296).toNat
    else 0xd3 :: beBytes 8 (i + 18446744073709551616).toNat

mutual

/-- MessagePack encoding of a value (the format written by `rmps::to_vec`). -/
def encodeVal : MsgValue → List Nat
  | .nil => [0xc0]
  | .bool false => [0xc2]
  | .bool true => [0xc3]
  | .int i => encodeInt i
  | .str s =>
      if s.length < 32 then (0xa0 + s.length) :: s
      else if s.length < 256 then 0xd9 :: s.length :: s
      else if s.length < 65536 then 0xda :: (beBytes 2 s.length ++ s)
      else 0xdb :: (beBytes 4 s.length ++ s)
  | .bin b =>
      if b.length < 256 then 0xc4 :: b.length :: b
      else if b.length < 65536 then 0xc5 :: (beBytes 2 b.length ++ b)
      else 0xc6 :: (beBytes 4 b.length ++ b)
  | .arr xs =>
      (if xs.length < 16 then [0x90 + xs.length]
       else if xs.length < 65536 then 0xdc :: beBytes 2 xs.length
       else 0xdd :: beBytes 4 xs.length) ++ encodeList xs
  | .map ps =>
      (if ps.length < 16 then [0x80 + ps.length]
       else if ps.length < 65536 then 0xde :: beBytes 2 ps.length
       else 0xdf :: beBytes 4 ps.length) ++ encodePairs ps

def encodeList : List MsgValue → List Nat
  | [] => []
  | v :: vs => encodeVal v ++ encodeList vs

def encodePairs : List (MsgValue × MsgValue) → List Nat
  | [] => []
  | (k, v) :: ps => encodeVal k ++ encodeVal v ++ encodePairs ps

end

mutual

/-- Representability in `rmpv::Value`: integers fit in `i64`/`u64`,
string/binary/collection lengths fit in 32 bits. -/
def wfVal : MsgValue → Bool
  | .nil => true
  | .bool _ => true
  | .int i => decide (-(2 ^ 63) ≤ i) && decide (i < 2 ^ 64)
  | .str s => decide (s.length < 2 ^ 32)
  | .bin b => decide (b.length < 2 ^ 32)
  | .arr xs => decide (xs.length < 2 ^ 32) && wfList xs
  | .map ps => decide (ps.length < 2 ^ 32) && wfPairs ps

def wfList : List MsgValue → Bool
  | [] => true
  | v :: vs => wfVal v && wfList vs

def wfPairs : List (MsgValue × MsgValue) → Bool
  | [] => true
  | (k, v) :: ps => wfVal k && wfVal v && wfPairs ps

end

mutual

/-- Fuel needed by the decoder (`parseVal`) to consume an encoded value. -/
def msgSize : MsgValue → Nat
  | .nil => 1
  | .bool _ => 1
  | .int _ => 1
  | .str _ => 1
  | .bin _ => 1
  | .arr xs => 1 + msgSizeList xs
  | .map ps => 1 + msgSizePairs ps

def msgSizeList : List MsgValue → Nat
  | [] => 0
  | v :: vs => 1 + max (msgSize v) (msgSizeList vs)

def msgSizePairs : List (MsgValue × MsgValue) → Nat
  | [] => 0
  | (k, v) :: ps => 1 + max (msgSize k) (max (msgSize v) (msgSizePairs ps))

end

/-- Read exactly `k` bytes from the input. -/
def readBytes (k : Nat) (l : List Nat) : Option (List Nat × List Nat) :=
  if k ≤ l.length then some (l.take k, l.drop k) else none

mutual

/-- MessagePack decoder (`rmpv::decode::read_value` on the modelled
fragment), with explicit fuel; returns the value and the remaining bytes.
Float (`0xca`/`0xcb`), ext and the reserved `0xc1` headers are outside the
modelled fragment and fail. -/
def parseVal : Nat → List Nat → Option (MsgValue × List Nat)
  | 0, _ => none
  | _ + 1, [] => none
  | f + 1, b :: rest =>
    if b < 0x80 then some (.int b, rest)
    else if b < 0x90 then
      (parsePairs f (b - 0x80) rest).map fun (ps, r) => (.map ps, r)
    else if b < 0xa0 then
      (parseList f (b - 0x90) rest).map fun (xs, r) => (.arr xs, r)
    else if b < 0xc0 then
      (readBytes (b - 0xa0) rest).map fun (s, r) => (.str s, r)
    else if b = 0xc0 then some (.nil, rest)
    else if b = 0xc2 then some (.bool false, rest)
    else if b = 0xc3 then some (.bool true, rest)
    else if b = 0xc4 then do
      let (lb, r1) ← readBytes 1 rest
      let (s, r2) ← readBytes (fromBe lb) r1
      some (.bin s, r2)
    else if b = 0xc5 then do
      let (lb, r1) ← readBytes 2 rest
      let (s, r2) ← readBytes (fromBe lb) r1
      some (.bin s, r2)
    else if b = 0xc6 then do
      let (lb, r1) ← readBytes 4 rest
      let (s, r2) ← readBytes (fromBe lb) r1
      some (.bin s, r2)
    else if b = 0xcc then do
      let (nb, r1) ← readBytes 1 rest
      some (.int (fromBe nb), r1)
    else if b = 0xcd then do
      let (nb, r1) ← readBytes 2 rest
      some (.int (fromBe nb), r1)
    else if b = 0xce then do
      let (nb, r1) ← readBytes 4 rest
      some (.int (fromBe nb), r1)
    else if b = 0xcf then do
      let (nb, r1) ← readBytes 8 rest
      some (.int (fromBe nb), r1)
    else if b = 0xd0 then do
      let (nb, r1) ← readBytes 1 rest
      let m := fromBe nb
      some (.int (if m < 128 then (m : Int) else (m : Int) - 256), r1)
    else if b = 0xd1 then do
      let (nb, r1) ← readBytes 2 rest
      let m := fromBe nb
      some (.int (if m < 32768 then (m : Int) else (m : Int) - 65536), r1)
    else if b = 0xd2 then do
      let (nb, r1) ← readBytes 4 rest
      let m := fromBe nb
      some (.int (if m < 2147483648 then (m : Int)
                  else (m : Int) - 4294967296), r1)
    else if b = 0xd3 then do
      let (nb, r1) ← readBytes 8 rest
      let m := fromBe nb
      some (.int (if m < 9223372036854775808 then (m : Int)
                  else (m : Int) - 18446744073709551616), r1)
    else if b = 0xd9 then do
      let (lb, r1) ← readBytes 1 rest
      let (s, r2) ← readBytes (fromBe lb) r1
      some (.str s, r2)
    else if b = 0xda then do
      let (lb, r1) ← readBytes 2 rest
      let (s, r2) ← readBytes (fromBe lb) r1
      some (.str s, r2)
    else if b = 0xdb then do
      let (lb, r1) ← readBytes 4 rest
      let (s, r2) ← readBytes (fromBe lb) r1
      some (.str s, r2)
    else if b = 0xdc then do
      let (lb, r1) ← readBytes 2 rest
      let (xs, r2) ← parseList f (fromBe lb) r1
      some (.arr xs, r2)
    else if b = 0xdd then do
      let (lb, r1) ← readBytes 4 rest
      let (xs, r2) ← parseList f (fromBe lb) r1
      some (.arr xs, r2)
    else if b = 0xde then do
      let (lb, r1) ← readBytes 2 rest
      let (ps, r2) ← parsePairs f (fromBe lb) r1
      some (.map ps, r2)
    else if b = 0xdf then do
      let (lb, r1) ← readBytes 4 rest
      let (ps, r2) ← parsePairs f (fromBe lb) r1
      some (.map ps, r2)
    else if 0xe0 ≤ b ∧ b ≤ 0xff then some (.int ((b : Int) - 256), rest)
    else none

def parseList : Nat → Nat → List Nat → Option (List MsgValue × List Nat)
  | _, 0, input => some ([], input)
  | 0, _ + 1, _ => none
  | f + 1, n + 1, input => do
    let (v, r) ← parseVal f input
    let (vs, r') ← parseList f n r
    some (v :: vs, r')

def parsePairs : Nat → Nat → List Nat → Option (List (MsgValue × MsgValue) × List Nat)
  | _, 0, input => some ([], input)
  | 0, _ + 1, _ => none
  | f + 1, n + 1, input => do
    let (k, r1) ← parseVal f input
    let (v, r2) ← parseVal f r1
    let (ps, r3) ← parsePairs f n r2
    some ((k, v) :: ps, r3)

end

/-! ### The `SekaiCryptor` codec (src/crypto/sekai_cryptor.rs)

The codec holds a fixed 16-byte key and IV; the AES-128 block maps derived
from the key are abstracted as `encB`/`decB` (dependency code), while the
length guards, the CBC chaining, PKCS7 and MessagePack layers are concrete. -/

/-- `SekaiCryptor::pack`: MessagePack-encode, PKCS7-pad to a 16-byte
boundary, AES-128-CBC-encrypt. -/
def pack (encB : List Nat → List Nat) (iv : List Nat) (v : MsgValue) : List Nat :=
  (cbcEncBlocks encB iv (chunks16 (pkcs7Pad (encodeVal v)))).flatten

/-- The CBC-decrypted plaintext of a ciphertext (before padding removal). -/
def decryptedOf (decB : List Nat → List Nat) (iv data : List Nat) : List Nat :=
  (cbcDecBlocks decB iv (chunks16 data)).flatten

/-- `SekaiCryptor::unpack`: checks for empty input and non-multiple-of-16
length, CBC-decrypts, strips PKCS7, MessagePack-decodes. -/
def unpackMsg (decB : List Nat → List Nat) (iv : List Nat) (data : List Nat) :
    Except AppErr MsgValue :=
  if data.length = 0 then .error (.cryptoError "Content cannot be empty")
  else if data.length % 16 ≠ 0 then
    .error (.cryptoError "Content length is not a multiple of AES block size")
  else
    match pkcs7Unpad (decryptedOf decB iv data) with
    | .error e => .error e
    | .ok unpadded =>
        match parseVal (2 * unpadded.length + 1) unpadded with
        | some (v, _) => .ok v
        | none => .error (.parseError "MsgPack decode error")

/-- Does a `Result` carry a `CryptoError`? -/
def isCryptoErr {α : Type} : Except AppErr α → Bool
  | .error (.cryptoError _) => true
  | _ => false

/-! ### Ordered decoding (`SekaiCryptor::unpack_ordered` and `rmpv_to_json`)

`rmpv_to_json` converts an `rmpv::Value` into a `serde_json::Value`: integer
map keys become decimal strings, binary and ext payloads become standard
base64, non-string/non-integer keys are skipped.  JSON strings are modelled
as UTF-8 byte sequences, like MessagePack strings. -/

inductive MpJson where
  | jnull
  | jbool (b : Bool)
  | jnum (n : Int)
  | jstr (s : List Nat)
  | jarr (xs : List MpJson)
  | jobj (ps : List (List Nat × MpJson))
  deriving Repr

/-- The base64 alphabet character (standard alphabet), as a byte. -/
def b64Char (n : Nat) : Nat :=
  if n < 26 then 65 + n
  else if n < 52 then 97 + (n - 26)
  else if n < 62 then 48 + (n - 52)
  else if n = 62 then 43 else 47

/-- Standard base64 with `=` padding (`base64::engine::general_purpose::STANDARD`). -/
def base64Encode : List Nat → List Nat
  | [] => []
  | [a] => [b64Char (a / 4), b64Char (a % 4 * 16), 61, 61]
  | [a, b] => [b64Char (a / 4), b64Char (a % 4 * 16 + b / 16), b64Char (b % 16 * 4), 61]
  | a :: b :: c :: rest =>
      b64Char (a / 4) :: b64Char (a % 4 * 16 + b / 16) ::
        b64Char (b % 16 * 4 + c / 64) :: b64Char (c % 64) :: base64Encode rest

/-- Decimal digits of a natural number, as ASCII bytes. -/
def natDecimal (n : Nat) : List Nat :=
  if n < 10 then [48 + n] else natDecimal (n / 10) ++ [48 + n % 10]
termination_by n
decreasing_by omega

/-- `i.to_string()` for an `rmpv` integer, as ASCII bytes. -/
def intDecimal (i : Int) : List Nat :=
  if i < 0 then 45 :: natDecimal (-i).toNat else natDecimal i.toNat

/-- Modelled from the spec: `serde_json` is compiled with its `preserve_order`
feature (the manifest that enables it is not among the sources), so
`serde_json::Map` is an insertion-ordered map whose `insert` replaces the
value of an existing key in place and appends new keys at the end.  The map
is modelled as an association list with this insertion operation. -/
def insertOrdered (m : List (List Nat × MpJson)) (k : List Nat) (v : MpJson) :
    List (List Nat × MpJson) :=
  match m with
  | [] => [(k, v)]
  | (k2, v2) :: rest =>
      if k2 = k then (k, v) :: rest else (k2, v2) :: insertOrdered rest k v

mutual

/-- `rmpv_to_json` on the modelled fragment (total here: the only failing
arms in the source are the float ones, which are outside the fragment). -/
def rmpvToJson : MsgValue → MpJson
  | .nil => .jnull
  | .bool b => .jbool b
  | .int i => .jnum i
  | .str s => .jstr s
  | .bin b => .jstr (base64Encode b)
  | .arr xs => .jarr (rmpvToJsonList xs)
  | .map ps => .jobj (rmpvToJsonPairs [] ps)

def rmpvToJsonList : List MsgValue → List MpJson
  | [] => []
  | v :: vs => rmpvToJson v :: rmpvToJsonList vs

def rmpvToJsonPairs (acc : List (List Nat × MpJson)) :
    List (MsgValue × MsgValue) → List (List Nat × MpJson)
  | [] => acc
  | (k, v) :: ps =>
      match k with
      | .str s => rmpvToJsonPairs (insertOrdered acc s (rmpvToJson v)) ps
      | .int i => rmpvToJsonPairs (insertOrdered acc (intDecimal i) (rmpvToJson v)) ps
      | _ => rmpvToJsonPairs acc ps

end

/-- `SekaiCryptor::unpack_ordered`: like `unpack` but converts through
`rmpv_to_json` and requires a map at the top level. -/
def unpackOrdered (decB : List Nat → List Nat) (iv : List Nat) (data : List Nat) :
    Except AppErr (List (List Nat × MpJson)) :=
  if data.length = 0 then .error (.cryptoError "Content cannot be empty")
  else if data.length % 16 ≠ 0 then
    .error (.cryptoError "Content length is not a multiple of AES block size")
  else
    match pkcs7Unpad (decryptedOf decB iv data) with
    | .error e => .error e
    | .ok unpadded =>
        match parseVal (2 * unpadded.length + 1) unpadded with
        | none => .error (.cryptoError "MsgPack decode error")
        | some (v, _) =>
            match rmpvToJson v with
            | .jobj m => .ok m
            | _ => .error (.cryptoError "Expected object at top level")

/-- The byte string of a MessagePack string key (`[]` on other shapes). -/
def msgStrBytes : MsgValue → List Nat
  | .str s => s
  | _ => []

/-! ### Version comparison (src/client/helper.rs, `compare_version`)

Rust `&str` values are modelled as `List Char`; `v.split('.')` becomes
`splitDot`, and `str::parse::<u32>` becomes `parseU32` (optional leading `+`,
at least one ASCII digit, value below `2^32`). -/

/-- `v.split('.')` (keeps empty segments, like Rust's `split`). -/
def splitDot : List Char → List (List Char)
  | [] => [[]]
  | c :: rest =>
      if c = '.' then [] :: splitDot rest
      else
        match splitDot rest with
        | s :: ss => (c :: s) :: ss
        | [] => [[c]]

/-- Accumulate decimal digits; any non-digit character fails. -/
def parseDigitsAcc : List Char → Nat → Option Nat
  | [], acc => some acc
  | c :: rest, acc =>
      if '0' ≤ c ∧ c ≤ '9' then parseDigitsAcc rest (acc * 10 + (c.toNat - 48))
      else none

/-- `s.parse::<u32>()`: optional leading `+`, one or more digits, < 2^32. -/
def parseU32 (s : List Char) : Option Nat :=
  let t := match s with
    | '+' :: rest => rest
    | _ => s
  if t.isEmpty then none
  else
    match parseDigitsAcc t 0 with
    | some n => if n < 4294967296 then some n else none
    | none => none

/-- The `parse_segments` closure: parse every dot-separated segment as `u32`,
failing with `ParseError` on the first bad segment. -/
def parseSegmentsList : List (List Char) → Except AppErr (List Nat)
  | [] => .ok []
  | s :: rest =>
      match parseU32 s with
      | none => .error (.parseError "Invalid version segment")
      | some n =>
          match parseSegmentsList rest with
          | .ok ns => .ok (n :: ns)
          | .error e => .error e

/-- The comparison loop of `compare_version`: for `i` in `0..max_len`,
compare `segments.get(i).copied().unwrap_or(0)` on both sides. -/
def segGtLoop (ns cs : List Nat) : Nat → Nat → Bool
  | _, 0 => false
  | i, rem + 1 =>
      if cs.getD i 0 < ns.getD i 0 then true
      else if ns.getD i 0 < cs.getD i 0 then false
      else segGtLoop ns cs (i + 1) rem

/-- `compare_version(new_version, current_version)`. -/
def compareVersion (newV curV : List Char) : Except AppErr Bool :=
  match parseSegmentsList (splitDot newV) with
  | .error e => .error e
  | .ok ns =>
      match parseSegmentsList (splitDot curV) with
      | .error e => .error e
      | .ok cs => .ok (segGtLoop ns cs 0 (max ns.length cs.length))

/-- The spec's reading: `a` is lexicographically greater per-segment after
zero-padding the shorter segment sequence. -/
def specLexGt (ns cs : List Nat) : Prop :=
  ∃ i, i < max ns.length cs.length ∧
    (∀ j, j < i → ns.getD j 0 = cs.getD j 0) ∧ cs.getD i 0 < ns.getD i 0

/-! ### Status classification (src/error.rs `SekaiHttpStatus::from_code`,
src/client/sekai_client.rs `handle_response` / `handle_response_ordered`)

Content types are modelled as `List Char`; the classifier's "unpack the
body" success path is represented by the `decrypt` outcome. -/

inductive SekaiHttpStatus where
  | ok
  | clientError
  | sessionError
  | notFound
  | conflict
  | gameUpgrade
  | serverError
  | underMaintenance
  deriving DecidableEq, Repr

/-- `SekaiHttpStatus::from_code`: `num_enum::TryFromPrimitive` over the eight
declared codes; anything else is `InvalidHttpStatus(code)`. -/
def fromCode : Nat → Except AppErr SekaiHttpStatus
  | 200 => .ok .ok
  | 400 => .ok .clientError
  | 403 => .ok .sessionError
  | 404 => .ok .notFound
  | 409 => .ok .conflict
  | 426 => .ok .gameUpgrade
  | 500 => .ok .serverError
  | 503 => .ok .underMaintenance
  | c => .error (.invalidHttpStatus c)

/-- Outcome of response classification: either proceed to decrypt+unpack the
body, or fail with an error. -/
inductive RespOutcome where
  | decrypt
  | err (e : AppErr)
  deriving DecidableEq, Repr

/-- Is the first list a prefix of the second? -/
def isPreOf : List Char → List Char → Bool
  | [], _ => true
  | _ :: _, [] => false
  | a :: as, b :: bs => a = b && isPreOf as bs

/-- `String::contains` on character lists: some suffix starts with `pat`. -/
def ctContains (ct pat : List Char) : Bool :=
  match ct with
  | [] => pat.isEmpty
  | _ :: rest => isPreOf pat ct || ctContains rest pat

/-- `SekaiClient::handle_response` (classification part; on `decrypt` the
source continues into `cryptor.unpack(&body)`). -/
def handleResponse (status : Nat) (contentTypeRaw : List Char) (body : String) :
    RespOutcome :=
  let ct := contentTypeRaw.map Char.toLower
  if ctContains ct ['o','c','t','e','t','-','s','t','r','e','a','m'] ||
     ctContains ct ['b','i','n','a','r','y'] then
    match fromCode status with
    | .error e => .err e
    | .ok s =>
        match s with
        | .ok | .clientError | .notFound | .conflict => .decrypt
        | .sessionError => .err .sessionError
        | .gameUpgrade => .err .upgradeRequired
        | .underMaintenance => .err .underMaintenance
        | .serverError => .err (.unknown status body)
  else
    match fromCode status with
    | .error e => .err e
    | .ok s =>
        match s with
        | .underMaintenance => .err .underMaintenance
        | .serverError => .err (.unknown status body)
        | .sessionError =>
            if ctContains ct ['x','m','l'] then .err .cookieExpired
            else .err (.unknown status body)
        | _ => .err (.unknown status body)

/-- `SekaiClient::handle_response_ordered` (classification part; on `decrypt`
the source continues into `cryptor.unpack_ordered(&body)`). -/
def handleResponseOrdered (status : Nat) (contentTypeRaw : List Char)
    (body : String) : RespOutcome :=
  let ct := contentTypeRaw.map Char.toLower
  if ctContains ct ['o','c','t','e','t','-','s','t','r','e','a','m'] ||
     ctContains ct ['b','i','n','a','r','y'] then
    match fromCode status with
    | .error e => .err e
    | .ok s =>
        match s with
        | .ok | .clientError | .notFound | .conflict => .decrypt
        | .sessionError => .err .sessionError
        | .gameUpgrade => .err .upgradeRequired
        | .underMaintenance => .err .underMaintenance
        | .serverError => .err (.unknown status body)
  else .err (.unknown status body)

/-! ### Session pool and the `get_game_api` retry loop
(src/client/sekai_client.rs)

The upstream interactions of each loop iteration are modelled as result
streams indexed by how many times the corresponding operation has run:
`rounds i` is the classified outcome of the `i`-th upstream call
(`self.get` + `handle_response_ordered`), `logins`, `cookieRefreshes` and
`versionRefreshes` likewise.  The loop returns the result together with the
number of upstream calls consumed. -/

/-- `SekaiClient::get_session`: `None` on an empty pool, else the element at
`fetch_add(counter) % pool.len()`. -/
def getSession {α : Type} (pool : List α) (counter : Nat) : Option α :=
  if pool.isEmpty then none
  else pool.get? (counter % pool.length)

/-- The `while retry_count < max_retries` body of `get_game_api`; `fuel` is
`max_retries - retry_count`, and the second component counts upstream calls. -/
def gameLoop {α : Type} (reqCookies : Bool)
    (rounds : Nat → Except AppErr α)
    (logins : Nat → Except AppErr Unit)
    (cookieRefreshes : Nat → Except AppErr Unit)
    (versionRefreshes : Nat → Except AppErr Unit) :
    Nat → Nat → Nat → Nat → Nat → Except AppErr (α × Nat) × Nat
  | 0, ci, _, _, _ => (.error (.networkError "Max retry attempts reached"), ci)
  | fuel + 1, ci, li, ki, vi =>
      match rounds ci with
      | .ok m => (.ok (m, 200), ci + 1)
      | .error .sessionError =>
          match logins li with
          | .error _ => (.error .sessionError, ci + 1)
          | .ok _ =>
              gameLoop reqCookies rounds logins cookieRefreshes versionRefreshes
                fuel (ci + 1) (li + 1) ki vi
      | .error .cookieExpired =>
          if reqCookies then
            match cookieRefreshes ki with
            | .error e => (.error e, ci + 1)
            | .ok _ =>
                gameLoop reqCookies rounds logins cookieRefreshes versionRefreshes
                  fuel (ci + 1) li (ki + 1) vi
          else (.error .cookieExpired, ci + 1)
      | .error .upgradeRequired =>
          match versionRefreshes vi with
          | .error e => (.error e, ci + 1)
          | .ok _ =>
              gameLoop reqCookies rounds logins cookieRefreshes versionRefreshes
                fuel (ci + 1) li ki (vi + 1)
      | .error .underMaintenance => (.error .underMaintenance, ci + 1)
      | .error e => (.error e, ci + 1)

/-- `SekaiClient::get_game_api`: `NoClientAvailable` when no session exists,
else the retry loop with `max_retries = 4`. -/
def getGameApi {α β : Type} (pool : List β) (counter : Nat) (reqCookies : Bool)
    (rounds : Nat → Except AppErr α)
    (logins : Nat → Except AppErr Unit)
    (cookieRefreshes : Nat → Except AppErr Unit)
    (versionRefreshes : Nat → Except AppErr Unit) :
    Except AppErr (α × Nat) × Nat :=
  match getSession pool counter with
  | none => (.error .noClientAvailable, 0)
  | some _ =>
      gameLoop reqCookies rounds logins cookieRefreshes versionRefreshes 4 0 0 0 0

/-- A round outcome the loop recovers from locally. -/
def isRecoverable {α : Type} (r : Except AppErr α) : Prop :=
  r = .error .sessionError ∨ r = .error .cookieExpired ∨ r = .error .upgradeRequired

/-! ### Nuverse master-data restoration (src/client/nuverse.rs)

`serde_json::Value` is modelled as `JVal` (numbers as integers — the float
case does not arise in these tables); `IndexMap<String, Value>` as an
association list with distinct keys, iterated in order. -/

inductive JVal where
  | null
  | bool (b : Bool)
  | num (n : Int)
  | str (s : String)
  | arr (xs : List JVal)
  | obj (ps : List (String × JVal))
  deriving Repr

/-- `Value::as_array` -/
def JVal.asArr? : JVal → Option (List JVal)
  | .arr xs => some xs
  | _ => none

/-- `Value::as_object` -/
def JVal.asObj? : JVal → Option (List (String × JVal))
  | .obj ps => some ps
  | _ => none

/-- `Value::as_str` -/
def JVal.asStr? : JVal → Option String
  | .str s => some s
  | _ => none

/-- `Value::as_u64`: the number viewed as a `u64` when it is one. -/
def JVal.asU64? : JVal → Option Nat
  | .num n => if 0 ≤ n ∧ n < 2 ^ 64 then some n.toNat else none
  | _ => none

/-- `Value::as_i64`: the number viewed as an `i64` when it fits. -/
def JVal.asI64? : JVal → Option Int
  | .num n => if -(2 ^ 63) ≤ n ∧ n < 2 ^ 63 then some n else none
  | _ => none

/-- `Value::is_null` -/
def JVal.isNull : JVal → Bool
  | .null => true
  | _ => false

/-- The enum substitution applied to one column entry (`restore_compact_data`
inner closure): null stays null, a `u64` index selects
`enum_values[index]` (out of range gives null), anything else is kept. -/
def enumEntry (enumValues : List JVal) (idx : JVal) : JVal :=
  if idx.isNull then JVal.null
  else
    match idx.asU64? with
    | some i => (enumValues.get? i).getD JVal.null
    | none => idx

/-- First phase of `restore_compact_data`: walk the columns in order,
pushing every non-`__ENUM__` key as a label and every array value as a
column (enum-mapped when declared).  A non-array value contributes a label
but no column, exactly as in the source. -/
def compactColumns (enumDef : Option (List (String × JVal))) :
    List (String × JVal) → List String × List (List JVal)
  | [] => ([], [])
  | (column, values) :: rest =>
      if column = "__ENUM__" then compactColumns enumDef rest
      else
        let tail := compactColumns enumDef rest
        match values.asArr? with
        | none => (column :: tail.1, tail.2)
        | some arr =>
            let col :=
              match enumDef with
              | some enums =>
                  match (enums.lookup column).bind JVal.asArr? with
                  | some enumValues => arr.map (enumEntry enumValues)
                  | none => arr
              | none => arr
            (column :: tail.1, col :: tail.2)

/-- `restore_compact_data`: columns map → row list (row count = minimum
column length, column order preserved inside each row). -/
def restoreCompactData (data : List (String × JVal)) :
    List (List (String × JVal)) :=
  let enumDef := (data.lookup "__ENUM__").bind JVal.asObj?
  let lc := compactColumns enumDef data
  if lc.2.isEmpty then []
  else
    let numEntries :=
      match lc.2.map List.length with
      | [] => 0
      | n :: ns => ns.foldl Nat.min n
    (List.range numEntries).map (fun i =>
      (lc.1.zip lc.2).map (fun c => (c.1, (c.2.get? i).getD JVal.null)))

/-- The spec's reading of `restore_compact_data`, written independently:
rows = minimum column length; row `i` maps each non-`__ENUM__` column `k`
with value array `a` to `(k, applyEnum k a[i])`. -/
def specCompactRows (data : List (String × JVal)) :
    List (List (String × JVal)) :=
  let enums := ((data.lookup "__ENUM__").bind JVal.asObj?).getD []
  let cols := data.filter (fun kv => kv.1 ≠ "__ENUM__")
  let applyEnum : String → JVal → JVal := fun label x =>
    match (enums.lookup label).bind JVal.asArr? with
    | none => x
    | some ev => enumEntry ev x
  let n :=
    match cols.map (fun kv => ((kv.2.asArr?).getD []).length) with
    | [] => 0
    | m :: ms => ms.foldl Nat.min m
  (List.range n).map (fun i =>
    cols.map (fun kv =>
      (kv.1, applyEnum kv.1 ((((kv.2.asArr?).getD []).get? i).getD JVal.null))))

/-- The column a non-`__ENUM__` entry contributes, as a function of the
entry (used to characterise `compactColumns`). -/
def colFn : Option (List (String × JVal)) → (String × JVal) → List JVal
  | none, kv => (kv.2.asArr?).getD []
  | some enums, kv =>
      match (enums.lookup kv.1).bind JVal.asArr? with
      | some enumValues => ((kv.2.asArr?).getD []).map (enumEntry enumValues)
      | none => (kv.2.asArr?).getD []

/-- `IndexMap::insert` on String-keyed maps: replace in place or append. -/
def insertOrderedS (m : List (String × JVal)) (k : String) (v : JVal) :
    List (String × JVal) :=
  match m with
  | [] => [(k, v)]
  | (k2, v2) :: rest =>
      if k2 = k then (k, v) :: rest else (k2, v2) :: insertOrderedS rest k v

/-- The `__tuple__` loop of `restore_dict`: for each non-null element at
index `idx`, insert it under `tuple_keys[idx]` when that is a string. -/
def tupleFoldAux (tupleKeys : List JVal) :
    Nat → List (String × JVal) → List JVal → List (String × JVal)
  | _, acc, [] => acc
  | idx, acc, v :: rest =>
      if v.isNull then tupleFoldAux tupleKeys (idx + 1) acc rest
      else
        match (tupleKeys.get? idx).bind JVal.asStr? with
        | some name => tupleFoldAux tupleKeys (idx + 1) (insertOrderedS acc name v) rest
        | none => tupleFoldAux tupleKeys (idx + 1) acc rest

mutual

/-- `restore_dict`: parallel walk of `array_data` and `key_structure`,
accumulating into an insertion-ordered map. -/
def restoreDictAux (acc : List (String × JVal)) :
    List JVal → List JVal → List (String × JVal)
  | [], _ => acc
  | _ :: _, [] => acc
  | v :: a2, k :: ks =>
      if v.isNull then restoreDictAux acc a2 ks
      else
        match k with
        | .str s => restoreDictAux (insertOrderedS acc s v) a2 ks
        | .arr (k0 :: k1 :: _) =>
            (match k1, v with
             | .arr subArr, .arr varr =>
                 restoreDictAux
                   (insertOrderedS acc ((k0.asStr?).getD "")
                     (.arr (restoreSubList subArr varr))) a2 ks
             | .obj so, v2 =>
                 (match (so.lookup "__tuple__").bind JVal.asArr?, v2 with
                  | some tupleKeys, .arr varr =>
                      restoreDictAux
                        (insertOrderedS acc ((k0.asStr?).getD "")
                          (.obj (tupleFoldAux tupleKeys 0 [] varr))) a2 ks
                  | _, _ => restoreDictAux acc a2 ks)
             | _, _ => restoreDictAux acc a2 ks)
        | _ => restoreDictAux acc a2 ks

/-- The `filter(non-null).map(...)` over a nested value array inside
`restore_dict`: arrays recurse into `restore_dict`, others pass through. -/
def restoreSubList (subArr : List JVal) : List JVal → List JVal
  | [] => []
  | si :: rest =>
      if si.isNull then restoreSubList subArr rest
      else
        match si with
        | .arr sarr =>
            .obj (restoreDictAux [] sarr subArr) :: restoreSubList subArr rest
        | _ => si :: restoreSubList subArr rest

end

/-- `restore_dict(array_data, key_structure)`. -/
def restoreDict (arrayData keyStructure : List JVal) : List (String × JVal) :=
  restoreDictAux [] arrayData keyStructure

/-- `Value::get(key)` (object member lookup; `None` on non-objects). -/
def JVal.getKey : JVal → String → Option JVal
  | .obj ps, k => ps.lookup k
  | _, _ => none

/-- `item.get("cardId").and_then(as_i64).unwrap_or(0)`: the sort key of the
`eventCards` merge. -/
def cardIdOf (x : JVal) : Int := ((x.getKey "cardId").bind JVal.asI64?).getD 0

/-- `key.strip_prefix("compact")` written on the character data. -/
def stripCompact (s : String) : Option String :=
  match s.data with
  | 'c' :: 'o' :: 'm' :: 'p' :: 'a' :: 'c' :: 't' :: rest => some (String.mk rest)
  | _ => none

/-- Lowercase the first character (`first_char.to_lowercase()` plus the
byte-indexed remainder); `none` on the empty string. -/
def decapitalize (s : String) : Option String :=
  match s.data with
  | [] => none
  | c :: cs => some (String.mk (Char.toLower c :: cs))

/-- `filter_map(|item| item.as_array().map(|a| json!(restore_dict(a, s))))` -/
def restoreRows (arr structArr : List JVal) : List JVal :=
  arr.filterMap (fun item =>
    (item.asArr?).map (fun a => JVal.obj (restoreDictAux [] a structArr)))

/-- The `eventCards` merge: original entries whose `cardId` is absent from
the restored list (`existing_ids`), followed by the restored entries. -/
def eventCardsMerge (valueArr processedArr : List JVal) : List JVal :=
  valueArr.filter (fun x =>
    match (x.getKey "cardId").bind JVal.asI64? with
    | some i =>
        ! (processedArr.filterMap
            (fun item => (item.getKey "cardId").bind JVal.asI64?)).contains i
    | none => true) ++ processedArr

/-- The per-item loop of `nuverse_master_restorer`. State:
`restored_compact_master`, `processed_data`, `restored_from_compact`. -/
def nuverseRestoreGo (structures : List (String × JVal)) :
    List (String × JVal) → List (String × JVal) → List (String × JVal) →
    List String → List (String × JVal) × List (String × JVal)
  | [], rcm, pd, _ => (rcm, pd)
  | (key, value) :: rest, rcm, pd, rfc =>
      match stripCompact key with
      | some newKeyOriginal =>
          let rcm1 := insertOrderedS rcm key value
          match value.asObj? with
          | some dataMap =>
              (match decapitalize newKeyOriginal with
               | some newKey =>
                   nuverseRestoreGo structures rest
                     (insertOrderedS rcm1 newKey
                       (.arr ((restoreCompactData dataMap).map JVal.obj)))
                     pd (newKey :: rfc)
               | none => nuverseRestoreGo structures rest rcm1 pd rfc)
          | none => nuverseRestoreGo structures rest rcm1 pd rfc
      | none =>
          if rfc.contains key then nuverseRestoreGo structures rest rcm pd rfc
          else
            let pd1 :=
              match structures.lookup key with
              | some structVal =>
                  match value.asArr?, structVal.asArr? with
                  | some arr, some structArr =>
                      insertOrderedS pd key (.arr (restoreRows arr structArr))
                  | _, _ => insertOrderedS pd key value
              | none => insertOrderedS pd key value
            let pd2 :=
              if key = "eventCards" then
                match (pd1.lookup key).bind JVal.asArr?, value.asArr? with
                | some processedArr, some valueArr =>
                    insertOrderedS pd1 key
                      (.arr (List.insertionSort
                        (fun a b => cardIdOf a ≤ cardIdOf b)
                        (eventCardsMerge valueArr processedArr)))
                | _, _ => pd1
              else pd1
            nuverseRestoreGo structures rest rcm pd2 rfc

/-- The final loop: append every processed entry whose key is not already in
`restored_compact_master`. -/
def mergeFinal : List (String × JVal) → List (String × JVal) →
    List (String × JVal)
  | rcm, [] => rcm
  | rcm, (k, v) :: rest =>
      mergeFinal (if (rcm.lookup k).isSome then rcm else insertOrderedS rcm k v)
        rest

/-- `nuverse_master_restorer(master_data, structures)` (the source signature
returns `Result` but never errs). -/
def nuverseMasterRestorer (masterData structures : List (String × JVal)) :
    Except AppErr (List (String × JVal)) :=
  let go := nuverseRestoreGo structures masterData [] [] []
  .ok (mergeFinal go.1 go.2)

/-! ### Account loading (CP dialect) -/

/-- The CP account record `SekaiAccountCP` (src/client/account.rs): stored
`user_id`, `device_id` and `credential`, all strings. -/
structure SekaiAccountCP where
  user_id : String
  device_id : String
  credential : String
  deriving DecidableEq, Repr

/-- The CP arm of `parse_account_value` (src/client/sekai_client.rs) after a
successful `SekaiAccountCP` deserialization.  The source always calls
`token_utils::extract_user_id_from_jwt(&acc.credential)`; that extractor is a
pure function of the credential, so its result is passed in as `extracted`.
On `Ok(user_id)` the stored field is overwritten with the derived value; on
`Err` the record is returned unchanged (the empty-`user_id` branch only logs
a warning and still returns the account). -/
def parseAccountValueCP (acc : SekaiAccountCP)
    (extracted : Except AppErr String) : SekaiAccountCP :=
  match extracted with
  | .ok u => ⟨u, acc.device_id, acc.credential⟩
  | .error _ => acc

theorem beBytes_length (k n : Nat) : (beBytes k n).length = k := by
  induction k generalizing n with
  | zero => rfl
  | succ k ih => simp [beBytes, ih]

theorem fromBe_append_singleton (bs : List Nat) (b : Nat) :
    fromBe (bs ++ [b]) = fromBe bs * 256 + b := by
  simp [fromBe, List.foldl_append]

theorem fromBe_beBytes (k n : Nat) : fromBe (beBytes k n) = n % 256 ^ k := by
  induction k generalizing n with
  | zero => simp [beBytes, fromBe, Nat.mod_one]
  | succ k ih =>
      rw [beBytes, fromBe_append_singleton, ih]
      have hpow : (256 : Nat) ^ (k + 1) = 256 * 256 ^ k := by
        rw [pow_succ, Nat.mul_comm]
      rw [hpow]
      have h1 : n / 256 % 256 ^ k = n % (256 * 256 ^ k) / 256 :=
        (Nat.mod_mul_right_div_self n 256 (256 ^ k)).symm
      have h2 : n % 256 = n % (256 * 256 ^ k) % 256 :=
        (Nat.mod_mod_of_dvd n ⟨256 ^ k, rfl⟩).symm
      rw [h1, h2]
      generalize n % (256 * 256 ^ k) = m
      omega

theorem fromBe_beBytes_of_lt {k n : Nat} (h : n < 256 ^ k) :
    fromBe (beBytes k n) = n := by
  rw [fromBe_beBytes, Nat.mod_eq_of_lt h]

theorem pkcs7Pad_padLen_pos (data : List Nat) : 1 ≤ 16 - data.length % 16 := by
  have h : data.length % 16 < 16 := Nat.mod_lt _ (by norm_num)
  omega

theorem pkcs7Pad_padLen_le (data : List Nat) : 16 - data.length % 16 ≤ 16 := by
  omega

theorem pkcs7Pad_length (data : List Nat) :
    (pkcs7Pad data).length = data.length + (16 - data.length % 16) := by
  simp [pkcs7Pad]

theorem pkcs7Pad_length_mod (data : List Nat) : (pkcs7Pad data).length % 16 = 0 := by
  rw [pkcs7Pad_length]
  have h : data.length % 16 < 16 := Nat.mod_lt _ (by norm_num)
  omega

theorem pkcs7Pad_length_pos (data : List Nat) : 0 < (pkcs7Pad data).length := by
  rw [pkcs7Pad_length]
  have := pkcs7Pad_padLen_pos data
  omega

theorem getLastD_append_replicate (xs : List Nat) (k a : Nat) (hk : 1 ≤ k) :
    (xs ++ List.replicate k a).getLastD 0 = a := by
  match k, hk with
  | k + 1, _ =>
    rw [List.replicate_succ' (n := k)]
    rw [← List.append_assoc]
    simp [List.getLastD_concat]

theorem pkcs7Unpad_pkcs7Pad (data : List Nat) :
    pkcs7Unpad (pkcs7Pad data) = .ok data := by
  have hlen := pkcs7Pad_length data
  have hpos := pkcs7Pad_length_pos data
  have hp1 := pkcs7Pad_padLen_pos data
  have hp16 := pkcs7Pad_padLen_le data
  set p := 16 - data.length % 16 with hp
  have hlast : (pkcs7Pad data).getLastD 0 = p :=
    getLastD_append_replicate data p p hp1
  rw [pkcs7Unpad]
  rw [if_neg (by omega)]
  simp only [hlast]
  rw [if_neg (by omega)]
  have hsub : (pkcs7Pad data).length - p = data.length := by omega
  have hdrop : (pkcs7Pad data).drop data.length = List.replicate p p := by
    unfold pkcs7Pad
    rw [← hp, List.drop_left]
  have htake : (pkcs7Pad data).take data.length = data := by
    unfold pkcs7Pad
    rw [← hp, List.take_left]
  rw [hsub, hdrop, htake]
  rw [if_pos]
  simp [List.all_eq_true]

theorem xorBytes_length (a b : List Nat) :
    (xorBytes a b).length = min a.length b.length := by
  simp [xorBytes]

theorem xorBytes_xorBytes_right (a b : List Nat) (h : a.length = b.length) :
    xorBytes (xorBytes a b) b = a := by
  induction a generalizing b with
  | nil => simp [xorBytes]
  | cons x xs ih =>
      match b with
      | [] => simp at h
      | y :: ys =>
          simp only [xorBytes, List.zipWith_cons_cons]
          rw [Nat.xor_cancel_right]
          have : xorBytes (xorBytes xs ys) ys = xs := ih ys (by simpa using h)
          simp only [xorBytes] at this
          rw [this]

theorem cbcDec_cbcEnc (encB decB : List Nat → List Nat)
    (hinv : ∀ b, b.length = 16 → decB (encB b) = b)
    (hlen : ∀ b, b.length = 16 → (encB b).length = 16) :
    ∀ (ps : List (List Nat)) (prev : List Nat),
      prev.length = 16 → (∀ p ∈ ps, p.length = 16) →
      cbcDecBlocks decB prev (cbcEncBlocks encB prev ps) = ps := by
  intro ps
  induction ps with
  | nil => intro prev _ _; rfl
  | cons p ps ih =>
      intro prev hprev hall
      have hp : p.length = 16 := hall p (by simp)
      have hxlen : (xorBytes p prev).length = 16 := by
        rw [xorBytes_length, hp, hprev]; omega
      simp only [cbcEncBlocks, cbcDecBlocks]
      rw [hinv _ hxlen]
      rw [xorBytes_xorBytes_right p prev (by rw [hp, hprev])]
      congr 1
      exact ih _ (by rw [hlen _ hxlen]) (fun q hq => hall q (by simp [hq]))

theorem chunks16_flatten (bs : List (List Nat)) (h : ∀ b ∈ bs, b.length = 16) :
    chunks16 bs.flatten = bs := by
  induction bs with
  | nil => simp [chunks16]
  | cons b bs ih =>
      have hb : b.length = 16 := h b (by simp)
      have hne : (b ++ bs.flatten) ≠ [] := by
        intro hcontra
        have hbnil : b = [] := by
          cases b with
          | nil => rfl
          | cons x xs => simp at hcontra
        rw [hbnil] at hb; simp at hb
      rw [List.flatten_cons]
      unfold chunks16
      rw [dif_neg hne]
      have htake : (b ++ bs.flatten).take 16 = b := by
        rw [← hb]; exact List.take_left b _
      have hdrop : (b ++ bs.flatten).drop 16 = bs.flatten := by
        rw [← hb]; exact List.drop_left b _
      rw [htake, hdrop, ih (fun q hq => h q (by simp [hq]))]

theorem chunks16_length_blocks (data : List Nat) (h : data.length % 16 = 0) :
    ∀ b ∈ chunks16 data, b.length = 16 := by
  induction data using chunks16.induct with
  | case1 => intro b hb; simp [chunks16] at hb
  | case2 l hl ih =>
      intro b hb
      unfold chunks16 at hb
      rw [dif_neg hl] at hb
      have hpos : 0 < l.length := List.length_pos.mpr hl
      have hlen : l.length ≥ 16 := by
        by_contra hc
        push_neg at hc
        have h1 : l.length % 16 = l.length := Nat.mod_eq_of_lt hc
        rw [h] at h1
        omega
      rcases List.mem_cons.mp hb with hb' | hb'
      · rw [hb']
        simp [List.length_take]
        omega
      · refine ih ?_ _ hb'
        simp only [List.length_drop]
        omega

theorem flatten_chunks16 (data : List Nat) : (chunks16 data).flatten = data := by
  induction data using chunks16.induct with
  | case1 => simp [chunks16]
  | case2 l hl ih =>
      unfold chunks16
      rw [dif_neg hl]
      simp only [List.flatten_cons]
      rw [ih, List.take_append_drop]

/-! ### Decoder/encoder round trip -/

theorem fromBe_singleton (b : Nat) : fromBe [b] = b := by
  simp [fromBe]

theorem readBytes_prefix_of_length {p : List Nat} {k : Nat} (rest : List Nat)
    (h : p.length = k) : readBytes k (p ++ rest) = some (p, rest) := by
  subst h
  rw [readBytes, if_pos (by simp)]
  rw [List.take_left, List.drop_left]

theorem readBytes_one (a : Nat) (l : List Nat) :
    readBytes 1 (a :: l) = some ([a], l) := by
  rw [← List.singleton_append]
  exact readBytes_prefix_of_length l rfl

theorem parseVal_encodeInt (f : Nat) (i : Int) (rest : List Nat)
    (h1 : -(2 ^ 63) ≤ i) (h2 : i < 2 ^ 64) :
    parseVal (f + 1) (encodeInt i ++ rest) = some (.int i, rest) := by
  unfold encodeInt
  split_ifs with hpos hb1 hb2 hb3 hb4 hn1 hn2 hn3 hn4
  · -- positive fixint
    simp only [List.cons_append, List.nil_append, parseVal]
    rw [if_pos hb1, Int.toNat_of_nonneg hpos]
  · -- uint8
    simp only [List.cons_append, List.nil_append]
    norm_num [parseVal, readBytes, fromBe]
    omega
  · -- uint16
    simp only [List.cons_append]
    norm_num [parseVal]
    rw [readBytes_prefix_of_length rest (beBytes_length 2 i.toNat)]
    norm_num [fromBe_beBytes_of_lt (show i.toNat < 256 ^ 2 by norm_num; omega)]
    omega
  · -- uint32
    simp only [List.cons_append]
    norm_num [parseVal]
    rw [readBytes_prefix_of_length rest (beBytes_length 4 i.toNat)]
    norm_num [fromBe_beBytes_of_lt (show i.toNat < 256 ^ 4 by norm_num; omega)]
    omega
  · -- uint64
    simp only [List.cons_append]
    norm_num [parseVal]
    rw [readBytes_prefix_of_length rest (beBytes_length 8 i.toNat)]
    norm_num [fromBe_beBytes_of_lt (show i.toNat < 256 ^ 8 by norm_num; omega)]
    omega
  · -- negative fixint
    simp only [List.cons_append, List.nil_append, parseVal]
    iterate 25 rw [if_neg (by omega)]
    rw [if_pos (by omega)]
    simp only [Option.some.injEq, Prod.mk.injEq, MsgValue.int.injEq]
    exact ⟨by omega, trivial⟩
  · -- int8
    simp only [List.cons_append, List.nil_append]
    norm_num [parseVal, readBytes, fromBe]
    omega
  · -- int16
    simp only [List.cons_append]
    norm_num [parseVal]
    rw [readBytes_prefix_of_length rest (beBytes_length 2 _)]
    norm_num [fromBe_beBytes_of_lt (show (i + 65536).toNat < 256 ^ 2 by norm_num; omega)]
    omega
  · -- int32
    simp only [List.cons_append]
    norm_num [parseVal]
    rw [readBytes_prefix_of_length rest (beBytes_length 4 _)]
    norm_num [fromBe_beBytes_of_lt
      (show (i + 4294967296).toNat < 256 ^ 4 by norm_num; omega)]
    omega
  · -- int64
    simp only [List.cons_append]
    norm_num [parseVal]
    rw [readBytes_prefix_of_length rest (beBytes_length 8 _)]
    norm_num [fromBe_beBytes_of_lt
      (show (i + 18446744073709551616).toNat < 256 ^ 8 by norm_num; omega)]
    omega

theorem msgSize_pos (v : MsgValue) : 1 ≤ msgSize v := by
  cases v <;> simp [msgSize]

theorem parseList_succ (f n : Nat) (input : List Nat) :
    parseList (f + 1) (n + 1) input = (do
      let (v, r) ← parseVal f input
      let (vs, r2) ← parseList f n r
      some (v :: vs, r2)) := rfl

theorem parsePairs_succ (f n : Nat) (input : List Nat) :
    parsePairs (f + 1) (n + 1) input = (do
      let (k, r1) ← parseVal f input
      let (v, r2) ← parseVal f r1
      let (ps, r3) ← parsePairs f n r2
      some ((k, v) :: ps, r3)) := rfl

/-- Joint encoder/decoder round trip, by strong induction on the fuel. -/
theorem parse_encode_all (fuel : Nat) :
    (∀ v rest, msgSize v ≤ fuel → wfVal v = true →
      parseVal fuel (encodeVal v ++ rest) = some (v, rest)) ∧
    (∀ xs rest, msgSizeList xs ≤ fuel → wfList xs = true →
      parseList fuel xs.length (encodeList xs ++ rest) = some (xs, rest)) ∧
    (∀ ps rest, msgSizePairs ps ≤ fuel → wfPairs ps = true →
      parsePairs fuel ps.length (encodePairs ps ++ rest) = some (ps, rest)) := by
  induction fuel using Nat.strong_induction_on with
  | _ fuel ih =>
  refine ⟨?_, ?_, ?_⟩
  · intro v rest hsz hwf
    cases fuel with
    | zero => exact absurd hsz (by have := msgSize_pos v; omega)
    | succ f =>
      obtain ⟨hAf, hBf, hCf⟩ := ih f (Nat.lt_succ_self f)
      cases v with
      | nil => norm_num [encodeVal, parseVal]
      | bool b => cases b <;> norm_num [encodeVal, parseVal]
      | int i =>
          simp only [wfVal, Bool.and_eq_true, decide_eq_true_eq] at hwf
          simp only [encodeVal]
          exact parseVal_encodeInt f i rest hwf.1 hwf.2
      | str s =>
          simp only [wfVal, decide_eq_true_eq] at hwf
          simp only [encodeVal]
          split_ifs with hL1 hL2 hL3
          · -- fixstr
            simp only [List.cons_append, parseVal]
            rw [if_neg (by omega), if_neg (by omega), if_neg (by omega),
              if_pos (by omega)]
            have hsub : 0xa0 + s.length - 0xa0 = s.length := by omega
            rw [hsub, readBytes_prefix_of_length rest rfl]
            simp [Option.map]
          · -- str8
            simp only [List.cons_append]
            norm_num [parseVal]
            rw [readBytes_one]
            simp only [Option.some_bind, fromBe_singleton]
            rw [readBytes_prefix_of_length (p := s) rest rfl]
            rfl
          · -- str16
            simp only [List.cons_append, List.append_assoc]
            norm_num [parseVal]
            rw [readBytes_prefix_of_length _ (beBytes_length 2 _)]
            simp only [Option.some_bind,
              fromBe_beBytes_of_lt (show s.length < 256 ^ 2 by norm_num; omega)]
            rw [readBytes_prefix_of_length (p := s) rest rfl]
            rfl
          · -- str32
            simp only [List.cons_append, List.append_assoc]
            norm_num [parseVal]
            rw [readBytes_prefix_of_length _ (beBytes_length 4 _)]
            simp only [Option.some_bind,
              fromBe_beBytes_of_lt (show s.length < 256 ^ 4 by norm_num; omega)]
            rw [readBytes_prefix_of_length (p := s) rest rfl]
            rfl
      | bin b =>
          simp only [wfVal, decide_eq_true_eq] at hwf
          simp only [encodeVal]
          split_ifs with hL1 hL2
          · -- bin8
            simp only [List.cons_append]
            norm_num [parseVal]
            rw [readBytes_one]
            simp only [Option.some_bind, fromBe_singleton]
            rw [readBytes_prefix_of_length (p := b) rest rfl]
            rfl
          · -- bin16
            simp only [List.cons_append, List.append_assoc]
            norm_num [parseVal]
            rw [readBytes_prefix_of_length _ (beBytes_length 2 _)]
            simp only [Option.some_bind,
              fromBe_beBytes_of_lt (show b.length < 256 ^ 2 by norm_num; omega)]
            rw [readBytes_prefix_of_length (p := b) rest rfl]
            rfl
          · -- bin32
            simp only [List.cons_append, List.append_assoc]
            norm_num [parseVal]
            rw [readBytes_prefix_of_length _ (beBytes_length 4 _)]
            simp only [Option.some_bind,
              fromBe_beBytes_of_lt (show b.length < 256 ^ 4 by norm_num; omega)]
            rw [readBytes_prefix_of_length (p := b) rest rfl]
            rfl
      | arr xs =>
          simp only [wfVal, Bool.and_eq_true, decide_eq_true_eq] at hwf
          simp only [msgSize] at hsz
          simp only [encodeVal]
          split_ifs with hL1 hL2
          · -- fixarray
            simp only [List.cons_append, List.nil_append, List.append_assoc, parseVal]
            rw [if_neg (by omega), if_neg (by omega), if_pos (by omega)]
            have hsub : 0x90 + xs.length - 0x90 = xs.length := by omega
            rw [hsub, hBf xs rest (by omega) hwf.2]
            rfl
          · -- array16
            simp only [List.cons_append, List.append_assoc]
            norm_num [parseVal]
            rw [readBytes_prefix_of_length _ (beBytes_length 2 _)]
            simp only [Option.some_bind,
              fromBe_beBytes_of_lt (show xs.length < 256 ^ 2 by norm_num; omega)]
            rw [hBf xs rest (by omega) hwf.2]
            rfl
          · -- array32
            simp only [List.cons_append, List.append_assoc]
            norm_num [parseVal]
            rw [readBytes_prefix_of_length _ (beBytes_length 4 _)]
            simp only [Option.some_bind,
              fromBe_beBytes_of_lt
                (show xs.length < 256 ^ 4 by norm_num; exact hwf.1)]
            rw [hBf xs rest (by omega) hwf.2]
            rfl
      | map ps =>
          simp only [wfVal, Bool.and_eq_true, decide_eq_true_eq] at hwf
          simp only [msgSize] at hsz
          simp only [encodeVal]
          split_ifs with hL1 hL2
          · -- fixmap
            simp only [List.cons_append, List.nil_append, List.append_assoc, parseVal]
            rw [if_neg (by omega), if_pos (by omega)]
            have hsub : 0x80 + ps.length - 0x80 = ps.length := by omega
            rw [hsub, hCf ps rest (by omega) hwf.2]
            rfl
          · -- map16
            simp only [List.cons_append, List.append_assoc]
            norm_num [parseVal]
            rw [readBytes_prefix_of_length _ (beBytes_length 2 _)]
            simp only [Option.some_bind,
              fromBe_beBytes_of_lt (show ps.length < 256 ^ 2 by norm_num; omega)]
            rw [hCf ps rest (by omega) hwf.2]
            rfl
          · -- map32
            simp only [List.cons_append, List.append_assoc]
            norm_num [parseVal]
            rw [readBytes_prefix_of_length _ (beBytes_length 4 _)]
            simp only [Option.some_bind,
              fromBe_beBytes_of_lt
                (show ps.length < 256 ^ 4 by norm_num; exact hwf.1)]
            rw [hCf ps rest (by omega) hwf.2]
            rfl
  · intro xs rest hsz hwf
    cases xs with
    | nil =>
        simp only [encodeList, List.nil_append, List.length_nil]
        cases fuel <;> rfl
    | cons x xs' =>
        cases fuel with
        | zero => simp only [msgSizeList] at hsz; omega
        | succ f =>
          obtain ⟨hAf, hBf, hCf⟩ := ih f (Nat.lt_succ_self f)
          simp only [msgSizeList] at hsz
          simp only [wfList, Bool.and_eq_true] at hwf
          simp only [encodeList, List.append_assoc, List.length_cons]
          rw [parseList_succ, hAf x _ (by omega) hwf.1]
          simp only [Option.bind_eq_bind, Option.some_bind]
          rw [hBf xs' rest (by omega) hwf.2]
          rfl
  · intro ps rest hsz hwf
    cases ps with
    | nil =>
        simp only [encodePairs, List.nil_append, List.length_nil]
        cases fuel <;> rfl
    | cons kv ps' =>
        obtain ⟨k, v⟩ := kv
        cases fuel with
        | zero => simp only [msgSizePairs] at hsz; omega
        | succ f =>
          obtain ⟨hAf, hBf, hCf⟩ := ih f (Nat.lt_succ_self f)
          simp only [msgSizePairs] at hsz
          simp only [wfPairs, Bool.and_eq_true] at hwf
          simp only [encodePairs, List.append_assoc, List.length_cons]
          rw [parsePairs_succ, hAf k _ (by omega) hwf.1.1]
          simp only [Option.bind_eq_bind, Option.some_bind]
          rw [hAf v _ (by omega) hwf.1.2]
          simp only [Option.some_bind]
          rw [hCf ps' rest (by omega) hwf.2]
          rfl

theorem encodeVal_length_pos (v : MsgValue) : 1 ≤ (encodeVal v).length := by
  cases v with
  | nil => simp [encodeVal]
  | bool b => cases b <;> simp [encodeVal]
  | int i =>
      simp only [encodeVal, encodeInt]
      split_ifs <;> simp [beBytes_length]
  | str s =>
      simp only [encodeVal]
      split_ifs <;> simp [beBytes_length]
  | bin b =>
      simp only [encodeVal]
      split_ifs <;> simp [beBytes_length]
  | arr xs =>
      simp only [encodeVal, List.length_append]
      split_ifs <;> simp [beBytes_length] <;> omega
  | map ps =>
      simp only [encodeVal, List.length_append]
      split_ifs <;> simp [beBytes_length] <;> omega

mutual

theorem msgSize_le_two_encLen : ∀ v : MsgValue,
    msgSize v ≤ 2 * (encodeVal v).length - 1
  | .nil => by simp [msgSize, encodeVal]
  | .bool b => by cases b <;> simp [msgSize, encodeVal]
  | .int i => by
      have h := encodeVal_length_pos (.int i)
      simp only [msgSize]
      omega
  | .str s => by
      have h := encodeVal_length_pos (.str s)
      simp only [msgSize]
      omega
  | .bin b => by
      have h := encodeVal_length_pos (.bin b)
      simp only [msgSize]
      omega
  | .arr xs => by
      have h := msgSizeList_le_two_encLen xs
      simp only [msgSize, encodeVal, List.length_append]
      have h2 : 1 ≤ (if xs.length < 16 then [0x90 + xs.length]
          else if xs.length < 65536 then 0xdc :: beBytes 2 xs.length
          else 0xdd :: beBytes 4 xs.length).length := by
        split_ifs <;> simp [beBytes_length] <;> omega
      omega
  | .map ps => by
      have h := msgSizePairs_le_two_encLen ps
      simp only [msgSize, encodeVal, List.length_append]
      have h2 : 1 ≤ (if ps.length < 16 then [0x80 + ps.length]
          else if ps.length < 65536 then 0xde :: beBytes 2 ps.length
          else 0xdf :: beBytes 4 ps.length).length := by
        split_ifs <;> simp [beBytes_length] <;> omega
      omega

theorem msgSizeList_le_two_encLen : ∀ xs : List MsgValue,
    msgSizeList xs ≤ 2 * (encodeList xs).length
  | [] => by simp [msgSizeList, encodeList]
  | x :: xs => by
      have h1 := msgSize_le_two_encLen x
      have h2 := msgSizeList_le_two_encLen xs
      have h3 := encodeVal_length_pos x
      simp only [msgSizeList, encodeList, List.length_append]
      rcases max_choice (msgSize x) (msgSizeList xs) with hm | hm <;> omega

theorem msgSizePairs_le_two_encLen : ∀ ps : List (MsgValue × MsgValue),
    msgSizePairs ps ≤ 2 * (encodePairs ps).length
  | [] => by simp [msgSizePairs, encodePairs]
  | (k, v) :: ps => by
      have h1 := msgSize_le_two_encLen k
      have h2 := msgSize_le_two_encLen v
      have h3 := msgSizePairs_le_two_encLen ps
      have h4 := encodeVal_length_pos k
      have h5 := encodeVal_length_pos v
      simp only [msgSizePairs, encodePairs, List.length_append]
      rcases max_choice (msgSize v) (msgSizePairs ps) with hm1 | hm1 <;>
        rcases max_choice (msgSize k) (max (msgSize v) (msgSizePairs ps)) with hm2 | hm2 <;>
        omega

end

theorem cbcEncBlocks_length (encB : List Nat → List Nat) :
    ∀ (bs : List (List Nat)) (prev : List Nat),
      (cbcEncBlocks encB prev bs).length = bs.length := by
  intro bs
  induction bs with
  | nil => intro prev; rfl
  | cons b bs ih => intro prev; simp [cbcEncBlocks, ih]

theorem cbcEncBlocks_all16 (encB : List Nat → List Nat)
    (hlen : ∀ b, b.length = 16 → (encB b).length = 16) :
    ∀ (bs : List (List Nat)) (prev : List Nat),
      prev.length = 16 → (∀ b ∈ bs, b.length = 16) →
      ∀ c ∈ cbcEncBlocks encB prev bs, c.length = 16 := by
  intro bs
  induction bs with
  | nil => intro prev _ _ c hc; simp [cbcEncBlocks] at hc
  | cons b bs ih =>
      intro prev hprev hall c hc
      have hb : b.length = 16 := hall b (by simp)
      have hx : (xorBytes b prev).length = 16 := by
        rw [xorBytes_length, hb, hprev]; omega
      simp only [cbcEncBlocks, List.mem_cons] at hc
      rcases hc with hc | hc
      · rw [hc]; exact hlen _ hx
      · exact ih _ (hlen _ hx) (fun q hq => hall q (by simp [hq])) c hc

theorem flatten_length_all16 (bs : List (List Nat)) (h : ∀ b ∈ bs, b.length = 16) :
    bs.flatten.length = 16 * bs.length := by
  induction bs with
  | nil => simp
  | cons b bs ih =>
      simp only [List.flatten_cons, List.length_append, List.length_cons]
      rw [h b (by simp), ih (fun q hq => h q (by simp [hq]))]
      ring

theorem chunks16_ne_nil (l : List Nat) (h : l ≠ []) : chunks16 l ≠ [] := by
  unfold chunks16
  rw [dif_neg h]
  simp

/-- Claim C1 (crypto round trip): for every representable MessagePack value,
`unpack ∘ pack = ok`, given that the block maps are mutually inverse and
length-preserving on 16-byte blocks. -/
theorem unpackMsg_pack (encB decB : List Nat → List Nat) (iv : List Nat)
    (hiv : iv.length = 16)
    (hinv : ∀ b, b.length = 16 → decB (encB b) = b)
    (hlen : ∀ b, b.length = 16 → (encB b).length = 16)
    (v : MsgValue) (hwf : wfVal v = true) :
    unpackMsg decB iv (pack encB iv v) = .ok v := by
  have hmod := pkcs7Pad_length_mod (encodeVal v)
  have hpos := pkcs7Pad_length_pos (encodeVal v)
  have hblocks : ∀ b ∈ chunks16 (pkcs7Pad (encodeVal v)), b.length = 16 :=
    chunks16_length_blocks _ hmod
  have hencall : ∀ c ∈ cbcEncBlocks encB iv (chunks16 (pkcs7Pad (encodeVal v))),
      c.length = 16 :=
    cbcEncBlocks_all16 encB hlen _ iv hiv hblocks
  have hflatlen : (pack encB iv v).length =
      16 * (chunks16 (pkcs7Pad (encodeVal v))).length := by
    rw [pack, flatten_length_all16 _ hencall, cbcEncBlocks_length]
  have hchnil : chunks16 (pkcs7Pad (encodeVal v)) ≠ [] :=
    chunks16_ne_nil _ (by intro hc; rw [hc] at hpos; simp at hpos)
  have hchpos : 0 < (chunks16 (pkcs7Pad (encodeVal v))).length :=
    List.length_pos.mpr hchnil
  rw [unpackMsg]
  rw [if_neg (by rw [hflatlen]; omega)]
  rw [if_neg (by rw [hflatlen]; omega)]
  have hch : chunks16 (pack encB iv v) =
      cbcEncBlocks encB iv (chunks16 (pkcs7Pad (encodeVal v))) := by
    rw [pack]
    exact chunks16_flatten _ hencall
  rw [decryptedOf, hch]
  rw [cbcDec_cbcEnc encB decB hinv hlen _ iv hiv hblocks]
  rw [flatten_chunks16]
  rw [pkcs7Unpad_pkcs7Pad]
  have hsz : msgSize v ≤ 2 * (encodeVal v).length + 1 := by
    have := msgSize_le_two_encLen v
    have := encodeVal_length_pos v
    omega
  have hparse := (parse_encode_all (2 * (encodeVal v).length + 1)).1 v [] hsz hwf
  rw [List.append_nil] at hparse
  simp only [hparse]

theorem cbcDecBlocks_length (decB : List Nat → List Nat) :
    ∀ (bs : List (List Nat)) (prev : List Nat),
      (cbcDecBlocks decB prev bs).length = bs.length := by
  intro bs
  induction bs with
  | nil => intro prev; rfl
  | cons b bs ih => intro prev; simp [cbcDecBlocks, ih]

theorem cbcDecBlocks_all16 (decB : List Nat → List Nat)
    (hd : ∀ b, b.length = 16 → (decB b).length = 16) :
    ∀ (bs : List (List Nat)) (prev : List Nat),
      prev.length = 16 → (∀ b ∈ bs, b.length = 16) →
      ∀ c ∈ cbcDecBlocks decB prev bs, c.length = 16 := by
  intro bs
  induction bs with
  | nil => intro prev _ _ c hc; simp [cbcDecBlocks] at hc
  | cons b bs ih =>
      intro prev hprev hall c hc
      have hb : b.length = 16 := hall b (by simp)
      simp only [cbcDecBlocks, List.mem_cons] at hc
      rcases hc with hc | hc
      · rw [hc, xorBytes_length, hd b hb, hprev]; omega
      · exact ih _ hb (fun q hq => hall q (by simp [hq])) c hc

theorem decryptedOf_length (decB : List Nat → List Nat) (iv data : List Nat)
    (hiv : iv.length = 16)
    (hd : ∀ b, b.length = 16 → (decB b).length = 16)
    (hmod : data.length % 16 = 0) :
    (decryptedOf decB iv data).length = data.length := by
  have hblocks := chunks16_length_blocks data hmod
  have hdecall := cbcDecBlocks_all16 decB hd _ iv hiv hblocks
  rw [decryptedOf, flatten_length_all16 _ hdecall, cbcDecBlocks_length]
  conv_rhs => rw [← flatten_chunks16 data]
  rw [flatten_length_all16 _ hblocks]

/-- `unpack` fails with a `CryptoError` exactly for: empty input, input length
not a multiple of 16, decrypted trailing byte `0`, trailing byte above 16, or
a padding-byte mismatch (msgpack failures are `ParseError`, not `CryptoError`). -/
theorem unpackMsg_cryptoError_iff (decB : List Nat → List Nat) (iv : List Nat)
    (hiv : iv.length = 16)
    (hd : ∀ b, b.length = 16 → (decB b).length = 16) (data : List Nat) :
    isCryptoErr (unpackMsg decB iv data) = true ↔
      data = [] ∨ ¬ data.length % 16 = 0 ∨
      (decryptedOf decB iv data).getLastD 0 = 0 ∨
      (decryptedOf decB iv data).getLastD 0 > 16 ∨
      ¬ (((decryptedOf decB iv data).drop
            ((decryptedOf decB iv data).length -
             (decryptedOf decB iv data).getLastD 0)).all
          (fun b => b = (decryptedOf decB iv data).getLastD 0)) = true := by
  by_cases h0 : data.length = 0
  · have hdata : data = [] := List.length_eq_zero.mp h0
    rw [unpackMsg, if_pos h0]
    simp [isCryptoErr, hdata]
  · by_cases hmod : data.length % 16 = 0
    · have hne : ¬ data = [] := by
        intro hc; rw [hc] at h0; simp at h0
      have hptlen : (decryptedOf decB iv data).length = data.length :=
        decryptedOf_length decB iv data hiv hd hmod
      have hlen16 : 16 ≤ data.length := by omega
      rw [unpackMsg, if_neg h0, if_neg (by simp [hmod])]
      rw [pkcs7Unpad]
      rw [if_neg (by omega)]
      by_cases hbad : (decryptedOf decB iv data).getLastD 0 = 0 ∨
          (decryptedOf decB iv data).getLastD 0 > 16 ∨
          (decryptedOf decB iv data).getLastD 0 > (decryptedOf decB iv data).length
      · rw [if_pos hbad]
        simp only [isCryptoErr, true_iff]
        rcases hbad with h | h | h
        · exact Or.inr (Or.inr (Or.inl h))
        · exact Or.inr (Or.inr (Or.inr (Or.inl h)))
        · exact Or.inr (Or.inr (Or.inr (Or.inl (by omega))))
      · rw [if_neg hbad]
        push_neg at hbad
        by_cases hall : (((decryptedOf decB iv data).drop
            ((decryptedOf decB iv data).length -
             (decryptedOf decB iv data).getLastD 0)).all
          (fun b => b = (decryptedOf decB iv data).getLastD 0)) = true
        · rw [if_pos hall]
          have hfalse : isCryptoErr
              (match parseVal
                  (2 * ((decryptedOf decB iv data).take
                    ((decryptedOf decB iv data).length -
                     (decryptedOf decB iv data).getLastD 0)).length + 1)
                  ((decryptedOf decB iv data).take
                    ((decryptedOf decB iv data).length -
                     (decryptedOf decB iv data).getLastD 0)) with
                | some (v, _) => (Except.ok v : Except AppErr MsgValue)
                | none => .error (.parseError "MsgPack decode error")) = false := by
            rcases hp : parseVal
                (2 * ((decryptedOf decB iv data).take
                  ((decryptedOf decB iv data).length -
                   (decryptedOf decB iv data).getLastD 0)).length + 1)
                ((decryptedOf decB iv data).take
                  ((decryptedOf decB iv data).length -
                   (decryptedOf decB iv data).getLastD 0)) with _ | ⟨w, r⟩
            · simp [isCryptoErr]
            · simp [isCryptoErr]
          rw [hfalse]
          simp only [Bool.false_eq_true, false_iff]
          push_neg
          exact ⟨hne, hmod, hbad.1, by omega, hall⟩
        · rw [if_neg hall]
          simp only [isCryptoErr, true_iff]
          exact Or.inr (Or.inr (Or.inr (Or.inr hall)))
    · rw [unpackMsg, if_neg h0, if_pos (by simp [hmod])]
      simp only [isCryptoErr, true_iff]
      exact Or.inr (Or.inl hmod)

/-- Claim C7: the PKCS7 padding added by `pack` always has length in `[1,16]`,
and `unpack` fails with a `CryptoError` exactly when the input is empty, its
length is not a multiple of 16, the decrypted trailing byte is `0` or exceeds
16, or the last `N` bytes (`N` the trailing byte) are not all `N`. -/
theorem pkcs7_claims (decB : List Nat → List Nat) (iv : List Nat)
    (hiv : iv.length = 16)
    (hd : ∀ b, b.length = 16 → (decB b).length = 16) :
    (∀ d : List Nat,
      1 ≤ (pkcs7Pad d).length - d.length ∧ (pkcs7Pad d).length - d.length ≤ 16) ∧
    (∀ data : List Nat,
      isCryptoErr (unpackMsg decB iv data) = true ↔
      data = [] ∨ ¬ data.length % 16 = 0 ∨
      (decryptedOf decB iv data).getLastD 0 = 0 ∨
      (decryptedOf decB iv data).getLastD 0 > 16 ∨
      ¬ (((decryptedOf decB iv data).drop
            ((decryptedOf decB iv data).length -
             (decryptedOf decB iv data).getLastD 0)).all
          (fun b => b = (decryptedOf decB iv data).getLastD 0)) = true) := by
  constructor
  · intro d
    rw [pkcs7Pad_length]
    have h : d.length % 16 < 16 := Nat.mod_lt _ (by norm_num)
    omega
  · intro data
    exact unpackMsg_cryptoError_iff decB iv hiv hd data

/-- Witness for claim C7 at `decB = id`, `iv = 0^16`: the padding of `[7]` has
length 15 ∈ [1,16], and a 1-byte ciphertext is rejected with `CryptoError`. -/
theorem pkcs7_claims_witness :
    (1 ≤ (pkcs7Pad [7]).length - [7].length ∧
     (pkcs7Pad [7]).length - [7].length ≤ 16) ∧
    isCryptoErr (unpackMsg id (List.replicate 16 0) [1]) = true :=
  ⟨(pkcs7_claims id (List.replicate 16 0) (by simp) (fun _ h => h)).1 [7],
   ((pkcs7_claims id (List.replicate 16 0) (by simp) (fun _ h => h)).2 [1]).mpr
     (Or.inr (Or.inl (by decide)))⟩

/-- Witness for claim C1 at `encB = decB = id`, `iv = 0^16` and the concrete
map value `{"a": 1, "b": [nil, true]}`. -/
theorem unpackMsg_pack_witness :
    unpackMsg id (List.replicate 16 0)
        (pack id (List.replicate 16 0)
          (.map [(.str [97], .int 1), (.str [98], .arr [.nil, .bool true])])) =
      .ok (.map [(.str [97], .int 1), (.str [98], .arr [.nil, .bool true])]) :=
  unpackMsg_pack id id (List.replicate 16 0) (by simp) (fun _ _ => rfl)
    (fun _ h => h) _ rfl

theorem pack_length (encB : List Nat → List Nat) (iv : List Nat)
    (hiv : iv.length = 16)
    (hlen : ∀ b, b.length = 16 → (encB b).length = 16) (v : MsgValue) :
    (pack encB iv v).length = (pkcs7Pad (encodeVal v)).length := by
  have hmod := pkcs7Pad_length_mod (encodeVal v)
  have hblocks := chunks16_length_blocks _ hmod
  have hencall := cbcEncBlocks_all16 encB hlen _ iv hiv hblocks
  rw [pack, flatten_length_all16 _ hencall, cbcEncBlocks_length]
  conv_rhs => rw [← flatten_chunks16 (pkcs7Pad (encodeVal v))]
  rw [flatten_length_all16 _ hblocks]

theorem decryptedOf_pack (encB decB : List Nat → List Nat) (iv : List Nat)
    (hiv : iv.length = 16)
    (hinv : ∀ b, b.length = 16 → decB (encB b) = b)
    (hlen : ∀ b, b.length = 16 → (encB b).length = 16) (v : MsgValue) :
    decryptedOf decB iv (pack encB iv v) = pkcs7Pad (encodeVal v) := by
  have hmod := pkcs7Pad_length_mod (encodeVal v)
  have hblocks := chunks16_length_blocks _ hmod
  have hencall := cbcEncBlocks_all16 encB hlen _ iv hiv hblocks
  have hch : chunks16 (pack encB iv v) =
      cbcEncBlocks encB iv (chunks16 (pkcs7Pad (encodeVal v))) := by
    rw [pack]
    exact chunks16_flatten _ hencall
  rw [decryptedOf, hch, cbcDec_cbcEnc encB decB hinv hlen _ iv hiv hblocks,
    flatten_chunks16]

/-- On a ciphertext produced by `pack`, `unpack_ordered` reduces to the
top-level-map check on the converted value. -/
theorem unpackOrdered_pack (encB decB : List Nat → List Nat) (iv : List Nat)
    (hiv : iv.length = 16)
    (hinv : ∀ b, b.length = 16 → decB (encB b) = b)
    (hlen : ∀ b, b.length = 16 → (encB b).length = 16)
    (v : MsgValue) (hwf : wfVal v = true) :
    unpackOrdered decB iv (pack encB iv v) =
      match rmpvToJson v with
      | .jobj m => .ok m
      | _ => .error (.cryptoError "Expected object at top level") := by
  have hplen := pack_length encB iv hiv hlen v
  have hpadpos := pkcs7Pad_length_pos (encodeVal v)
  have hpadmod := pkcs7Pad_length_mod (encodeVal v)
  rw [unpackOrdered]
  rw [if_neg (by omega)]
  rw [if_neg (by simp only [hplen, hpadmod]; omega)]
  rw [decryptedOf_pack encB decB iv hiv hinv hlen v, pkcs7Unpad_pkcs7Pad]
  have hsz : msgSize v ≤ 2 * (encodeVal v).length + 1 := by
    have := msgSize_le_two_encLen v
    have := encodeVal_length_pos v
    omega
  have hparse := (parse_encode_all (2 * (encodeVal v).length + 1)).1 v [] hsz hwf
  rw [List.append_nil] at hparse
  simp only [hparse]

theorem insertOrdered_append (m : List (List Nat × MpJson)) (k : List Nat)
    (v : MpJson) (h : ∀ p ∈ m, p.1 ≠ k) :
    insertOrdered m k v = m ++ [(k, v)] := by
  induction m with
  | nil => rfl
  | cons p rest ih =>
      obtain ⟨k2, v2⟩ := p
      rw [insertOrdered]
      rw [if_neg (h (k2, v2) (by simp))]
      rw [ih (fun q hq => h q (by simp [hq]))]
      rfl

theorem rmpvToJsonPairs_of_nodup (ps : List (MsgValue × MsgValue)) :
    ∀ acc : List (List Nat × MpJson),
      (∀ p ∈ ps, ∃ s, p.1 = MsgValue.str s) →
      (ps.map (fun p => msgStrBytes p.1)).Nodup →
      (∀ p ∈ ps, ∀ q ∈ acc, q.1 ≠ msgStrBytes p.1) →
      rmpvToJsonPairs acc ps =
        acc ++ ps.map (fun p => (msgStrBytes p.1, rmpvToJson p.2)) := by
  induction ps with
  | nil => intro acc _ _ _; simp [rmpvToJsonPairs]
  | cons p rest ih =>
      intro acc hkeys hnodup hdisj
      obtain ⟨k, v⟩ := p
      obtain ⟨s, hs⟩ := hkeys (k, v) (by simp)
      simp only at hs
      subst hs
      rw [rmpvToJsonPairs]
      rw [insertOrdered_append acc s (rmpvToJson v)
        (fun q hq => hdisj (.str s, v) (by simp) q hq)]
      simp only [List.map_cons] at hnodup
      rw [ih (acc ++ [(s, rmpvToJson v)])
        (fun q hq => hkeys q (by simp [hq]))
        (List.Nodup.of_cons hnodup)
        ?_]
      · simp [msgStrBytes]
      · intro q hq r hr
        rcases List.mem_append.mp hr with hr | hr
        · exact hdisj q (by simp [hq]) r hr
        · simp only [List.mem_singleton] at hr
          subst hr
          intro hc
          have hmem : msgStrBytes q.1 ∈ rest.map (fun p => msgStrBytes p.1) :=
            List.mem_map.mpr ⟨q, hq, rfl⟩
          rw [← hc] at hmem
          exact (List.nodup_cons.mp hnodup).1 hmem

/-- Claim C2: on a well-formed ciphertext whose MessagePack plaintext is a
top-level map with (distinct) string keys, `unpack_ordered` returns the
string-keyed ordered map in the original key order; on any other top-level
value it fails with `CryptoError("Expected object at top level")`. -/
theorem unpackOrdered_claims (encB decB : List Nat → List Nat) (iv : List Nat)
    (hiv : iv.length = 16)
    (hinv : ∀ b, b.length = 16 → decB (encB b) = b)
    (hlen : ∀ b, b.length = 16 → (encB b).length = 16) :
    (∀ ps : List (MsgValue × MsgValue), wfVal (.map ps) = true →
      (∀ p ∈ ps, ∃ s, p.1 = MsgValue.str s) →
      (ps.map (fun p => msgStrBytes p.1)).Nodup →
      unpackOrdered decB iv (pack encB iv (.map ps)) =
        .ok (ps.map (fun p => (msgStrBytes p.1, rmpvToJson p.2)))) ∧
    (∀ v : MsgValue, wfVal v = true → (∀ ps, v ≠ .map ps) →
      unpackOrdered decB iv (pack encB iv v) =
        .error (.cryptoError "Expected object at top level")) := by
  constructor
  · intro ps hwf hkeys hnodup
    rw [unpackOrdered_pack encB decB iv hiv hinv hlen _ hwf]
    rw [rmpvToJson]
    rw [rmpvToJsonPairs_of_nodup ps [] hkeys hnodup (by simp)]
    rfl
  · intro v hwf hnotmap
    rw [unpackOrdered_pack encB decB iv hiv hinv hlen v hwf]
    cases v with
    | map ps => exact absurd rfl (hnotmap ps)
    | nil => rfl
    | bool b => rfl
    | int i => rfl
    | str s => rfl
    | bin b => rfl
    | arr xs => rfl

/-- Witness for claim C2 at `encB = decB = id`, `iv = 0^16`: the map with key
order `["a","c","b"]` decodes to the same key order, and a non-map top level
(the integer `5`) is rejected. -/
theorem unpackOrdered_claims_witness :
    unpackOrdered id (List.replicate 16 0)
        (pack id (List.replicate 16 0)
          (.map [(.str [97], .int 1), (.str [99], .int 2), (.str [98], .int 3)])) =
      .ok [([97], .jnum 1), ([99], .jnum 2), ([98], .jnum 3)] ∧
    unpackOrdered id (List.replicate 16 0) (pack id (List.replicate 16 0) (.int 5)) =
      .error (.cryptoError "Expected object at top level") :=
  ⟨(unpackOrdered_claims id id (List.replicate 16 0) (by simp) (fun _ _ => rfl)
      (fun _ h => h)).1 _ rfl
    (by intro p hp; fin_cases hp <;> exact ⟨_, rfl⟩) (by decide),
   (unpackOrdered_claims id id (List.replicate 16 0) (by simp) (fun _ _ => rfl)
      (fun _ h => h)).2 (.int 5) rfl (fun ps h => nomatch h)⟩

theorem segGtLoop_iff (ns cs : List Nat) :
    ∀ (rem i : Nat),
      segGtLoop ns cs i rem = true ↔
      ∃ k, k < rem ∧ (∀ j, j < k → ns.getD (i + j) 0 = cs.getD (i + j) 0) ∧
        cs.getD (i + k) 0 < ns.getD (i + k) 0 := by
  intro rem
  induction rem with
  | zero => intro i; simp [segGtLoop]
  | succ rem ih =>
      intro i
      rw [segGtLoop]
      by_cases hgt : cs.getD i 0 < ns.getD i 0
      · rw [if_pos hgt]
        simp only [true_iff]
        exact ⟨0, by omega, by intro j hj; omega,
          by simp only [Nat.add_zero]; exact hgt⟩
      · rw [if_neg hgt]
        by_cases hlt : ns.getD i 0 < cs.getD i 0
        · rw [if_pos hlt]
          simp only [Bool.false_eq_true, false_iff]
          rintro ⟨k, hk, heq, hkgt⟩
          match k with
          | 0 => simp only [Nat.add_zero] at hkgt; omega
          | k + 1 =>
              have h0 := heq 0 (by omega)
              simp only [Nat.add_zero] at h0
              omega
        · rw [if_neg hlt]
          rw [ih (i + 1)]
          constructor
          · rintro ⟨k, hk, heq, hkgt⟩
            refine ⟨k + 1, by omega, ?_, ?_⟩
            · intro j hj
              match j with
              | 0 => simpa using (by omega : ns.getD i 0 = cs.getD i 0)
              | j + 1 =>
                  have := heq j (by omega)
                  have hidx : i + (j + 1) = i + 1 + j := by omega
                  rw [hidx]
                  exact this
            · have hidx : i + (k + 1) = i + 1 + k := by omega
              rw [hidx]
              exact hkgt
          · rintro ⟨k, hk, heq, hkgt⟩
            match k with
            | 0 => simp only [Nat.add_zero] at hkgt; omega
            | k + 1 =>
                refine ⟨k, by omega, ?_, ?_⟩
                · intro j hj
                  have := heq (j + 1) (by omega)
                  have hidx : i + (j + 1) = i + 1 + j := by omega
                  rw [hidx] at this
                  exact this
                · have := hkgt
                  have hidx : i + (k + 1) = i + 1 + k := by omega
                  rw [hidx] at this
                  exact this

/-- Claim C5: when both version strings parse, `compare_version` returns
`true` exactly when the zero-padded segment sequence of the first is
lexicographically greater; and the four concrete spec examples hold. -/
theorem compareVersion_claims :
    (∀ (a b : List Char) (ns cs : List Nat),
      parseSegmentsList (splitDot a) = .ok ns →
      parseSegmentsList (splitDot b) = .ok cs →
      (compareVersion a b = .ok true ↔ specLexGt ns cs)) ∧
    compareVersion ['1', '.', '2', '.', '3'] ['1', '.', '2'] = .ok true ∧
    compareVersion ['1', '.', '2'] ['1', '.', '2'] = .ok false ∧
    compareVersion ['1', '.', '2', '.', '0'] ['1', '.', '2'] = .ok false ∧
    compareVersion ['0', '.', '9'] ['1', '.', '0'] = .ok false := by
  refine ⟨?_, rfl, rfl, rfl, rfl⟩
  intro a b ns cs ha hb
  have hiff := segGtLoop_iff ns cs (max ns.length cs.length) 0
  simp only [Nat.zero_add] at hiff
  rw [compareVersion]
  simp only [ha, hb, Except.ok.injEq]
  exact hiff

/-- Witness for claim C5: the general equivalence applied to `"1.10"` vs
`"1.9"` (segment parses discharged by evaluation). -/
theorem compareVersion_claims_witness :
    compareVersion ['1', '.', '1', '0'] ['1', '.', '9'] = .ok true ↔
      specLexGt [1, 10] [1, 9] :=
  compareVersion_claims.1 ['1', '.', '1', '0'] ['1', '.', '9'] [1, 10] [1, 9]
    rfl rfl

/-- Claim C3 counterexample: a 418 response is classified as
`InvalidHttpStatus(418)` (propagated from `from_code` by `?`), not as
`Unknown{status, body}`, for binary and non-binary content types alike. -/
theorem handleResponse_unknown_status_counterexample :
    handleResponse 418
        ['a','p','p','l','i','c','a','t','i','o','n','/',
         'o','c','t','e','t','-','s','t','r','e','a','m'] "teapot" =
      .err (.invalidHttpStatus 418) ∧
    handleResponse 418 ['t','e','x','t','/','h','t','m','l'] "teapot" =
      .err (.invalidHttpStatus 418) ∧
    handleResponse 418
        ['a','p','p','l','i','c','a','t','i','o','n','/',
         'o','c','t','e','t','-','s','t','r','e','a','m'] "teapot" ≠
      .err (.unknown 418 "teapot") := by
  refine ⟨by decide, by decide, by decide⟩

theorem fromCode_not_listed (status : Nat)
    (h : status ∉ ([200, 400, 403, 404, 409, 426, 500, 503] : List Nat)) :
    fromCode status = .error (.invalidHttpStatus status) := by
  simp only [List.mem_cons, List.not_mem_nil, or_false, not_or] at h
  obtain ⟨h1, h2, h3, h4, h5, h6, h7, h8⟩ := h
  rw [fromCode.eq_def]
  split
  · exact absurd rfl h1
  · exact absurd rfl h2
  · exact absurd rfl h3
  · exact absurd rfl h4
  · exact absurd rfl h5
  · exact absurd rfl h6
  · exact absurd rfl h7
  · exact absurd rfl h8
  · rfl

/-- Claim C3 (amended): for every status outside
{200,400,403,404,409,426,500,503}, `handle_response` fails with
`InvalidHttpStatus(status)` regardless of content type and body. -/
theorem handleResponse_not_listed (status : Nat)
    (h : status ∉ ([200, 400, 403, 404, 409, 426, 500, 503] : List Nat))
    (ct : List Char) (body : String) :
    handleResponse status ct body = .err (.invalidHttpStatus status) := by
  rw [handleResponse, fromCode_not_listed status h]
  split_ifs <;> rfl

/-- Witness for the amended claim C3 at status 999. -/
theorem handleResponse_not_listed_witness :
    handleResponse 999 ['b','i','n','a','r','y'] "x" =
      .err (.invalidHttpStatus 999) :=
  handleResponse_not_listed 999 (by decide) ['b','i','n','a','r','y'] "x"

theorem gameLoop_recoverable_exhausts {α : Type}
    (rounds : Nat → Except AppErr α)
    (logins cookieRefreshes versionRefreshes : Nat → Except AppErr Unit)
    (hlog : ∀ i, logins i = .ok ())
    (hcook : ∀ i, cookieRefreshes i = .ok ())
    (hver : ∀ i, versionRefreshes i = .ok ()) :
    ∀ (fuel ci li ki vi : Nat),
      (∀ j, j < fuel → isRecoverable (rounds (ci + j))) →
      gameLoop true rounds logins cookieRefreshes versionRefreshes
          fuel ci li ki vi =
        (.error (.networkError "Max retry attempts reached"), ci + fuel) := by
  intro fuel
  induction fuel with
  | zero => intro ci li ki vi _; simp [gameLoop]
  | succ fuel ih =>
      intro ci li ki vi hrec
      have h0 := hrec 0 (by omega)
      simp only [Nat.add_zero] at h0
      rw [gameLoop]
      rcases h0 with h0 | h0 | h0
      · rw [h0, hlog li]
        rw [ih (ci + 1) (li + 1) ki vi
          (by intro j hj
              have h2 := hrec (j + 1) (by omega)
              have h3 : ci + (j + 1) = ci + 1 + j := by omega
              rwa [h3] at h2)]
        rw [Prod.mk.injEq]
        exact ⟨rfl, by omega⟩
      · rw [h0]
        rw [if_pos rfl, hcook ki]
        rw [ih (ci + 1) li (ki + 1) vi
          (by intro j hj
              have h2 := hrec (j + 1) (by omega)
              have h3 : ci + (j + 1) = ci + 1 + j := by omega
              rwa [h3] at h2)]
        rw [Prod.mk.injEq]
        exact ⟨rfl, by omega⟩
      · rw [h0, hver vi]
        rw [ih (ci + 1) li ki (vi + 1)
          (by intro j hj
              have h2 := hrec (j + 1) (by omega)
              have h3 : ci + (j + 1) = ci + 1 + j := by omega
              rwa [h3] at h2)]
        rw [Prod.mk.injEq]
        exact ⟨rfl, by omega⟩

/-- Claim C4: an `UnderMaintenance` round (in particular a 503 octet-stream
response) is surfaced immediately after that single upstream call, with no
further retry, at any point of the loop; and four exhausted recovery rounds
produce `NetworkError("Max retry attempts reached")` after exactly four
upstream calls. -/
theorem getGameApi_maintenance_and_retries :
    (∀ (body : String),
      handleResponseOrdered 503
        ['a','p','p','l','i','c','a','t','i','o','n','/',
         'o','c','t','e','t','-','s','t','r','e','a','m'] body =
        .err .underMaintenance) ∧
    (∀ (α : Type) (reqCookies : Bool)
      (rounds : Nat → Except AppErr α)
      (logins cookieRefreshes versionRefreshes : Nat → Except AppErr Unit)
      (fuel ci li ki vi : Nat), 0 < fuel →
      rounds ci = .error .underMaintenance →
      gameLoop reqCookies rounds logins cookieRefreshes versionRefreshes
          fuel ci li ki vi = (.error .underMaintenance, ci + 1)) ∧
    (∀ (α β : Type) (pool : List β) (counter : Nat)
      (rounds : Nat → Except AppErr α)
      (logins cookieRefreshes versionRefreshes : Nat → Except AppErr Unit),
      pool ≠ [] →
      (∀ i, logins i = .ok ()) →
      (∀ i, cookieRefreshes i = .ok ()) →
      (∀ i, versionRefreshes i = .ok ()) →
      (∀ j, j < 4 → isRecoverable (rounds j)) →
      getGameApi pool counter true rounds logins cookieRefreshes
          versionRefreshes =
        (.error (.networkError "Max retry attempts reached"), 4)) := by
  refine ⟨?_, ?_, ?_⟩
  · intro body; rfl
  · intro α reqCookies rounds logins cookieRefreshes versionRefreshes
      fuel ci li ki vi hfuel hum
    match fuel, hfuel with
    | fuel + 1, _ =>
      rw [gameLoop, hum]
  · intro α β pool counter rounds logins cookieRefreshes versionRefreshes
      hpool hlog hcook hver hrec
    rw [getGameApi]
    have hsess : ∃ x, getSession pool counter = some x := by
      rw [getSession, if_neg (by simpa using hpool)]
      have hlt : counter % pool.length < pool.length :=
        Nat.mod_lt _ (List.length_pos.mpr hpool)
      exact ⟨_, List.get?_eq_get hlt⟩
    obtain ⟨x, hx⟩ := hsess
    rw [hx]
    have := gameLoop_recoverable_exhausts rounds logins cookieRefreshes
      versionRefreshes hlog hcook hver 4 0 0 0 0
      (by intro j hj; simpa using hrec j hj)
    simpa using this

/-- Witness for claim C4: a first-round `UnderMaintenance` returns after one
call; four straight `SessionError` rounds with succeeding logins exhaust into
`NetworkError`. -/
theorem getGameApi_maintenance_and_retries_witness :
    handleResponseOrdered 503
        ['a','p','p','l','i','c','a','t','i','o','n','/',
         'o','c','t','e','t','-','s','t','r','e','a','m'] "maint" =
      .err .underMaintenance ∧
    gameLoop false (fun _ => (.error .underMaintenance : Except AppErr Unit))
        (fun _ => .ok ()) (fun _ => .ok ()) (fun _ => .ok ()) 4 0 0 0 0 =
      (.error .underMaintenance, 1) ∧
    getGameApi [()] 0 true (fun _ => (.error .sessionError : Except AppErr Unit))
        (fun _ => .ok ()) (fun _ => .ok ()) (fun _ => .ok ()) =
      (.error (.networkError "Max retry attempts reached"), 4) :=
  ⟨getGameApi_maintenance_and_retries.1 "maint",
   getGameApi_maintenance_and_retries.2.1 Unit false _ _ _ _ 4 0 0 0 0
     (by omega) rfl,
   getGameApi_maintenance_and_retries.2.2 Unit Unit [()] 0 _ _ _ _
     (by simp) (fun _ => rfl) (fun _ => rfl) (fun _ => rfl)
     (fun j _ => Or.inl rfl)⟩

/-- Claim C10: `get_session` returns `None` on an empty pool before any
modulo is taken (and `get_game_api` then fails with `NoClientAvailable`);
on a non-empty pool it returns the element at index `counter % pool.length`. -/
theorem getSession_claims :
    (∀ (α : Type) (pool : List α) (counter : Nat), pool = [] →
      getSession pool counter = none) ∧
    (∀ (α : Type) (pool : List α) (counter : Nat), pool ≠ [] →
      ∃ x, getSession pool counter = some x ∧ x ∈ pool ∧
        pool.get? (counter % pool.length) = some x) ∧
    (∀ (α β : Type) (pool : List β) (counter : Nat) (reqCookies : Bool)
      (rounds : Nat → Except AppErr α)
      (logins cookieRefreshes versionRefreshes : Nat → Except AppErr Unit),
      pool = [] →
      getGameApi pool counter reqCookies rounds logins cookieRefreshes
          versionRefreshes = (.error .noClientAvailable, 0)) := by
  refine ⟨?_, ?_, ?_⟩
  · intro α pool counter hpool
    rw [getSession, if_pos (by simp [hpool])]
  · intro α pool counter hpool
    have hlt : counter % pool.length < pool.length :=
      Nat.mod_lt _ (List.length_pos.mpr hpool)
    refine ⟨pool.get ⟨counter % pool.length, hlt⟩, ?_, List.get_mem pool _ hlt, ?_⟩
    · rw [getSession, if_neg (by simpa using hpool)]
      exact List.get?_eq_get hlt
    · exact List.get?_eq_get hlt
  · intro α β pool counter reqCookies rounds logins cookieRefreshes
      versionRefreshes hpool
    rw [getGameApi]
    rw [show getSession pool counter = none from by
      rw [getSession, if_pos (by simp [hpool])]]

/-- Witness for claim C10: the empty pool yields `None`/`NoClientAvailable`,
and a two-element pool at counter 3 yields its second element. -/
theorem getSession_claims_witness :
    getSession ([] : List Nat) 7 = none ∧
    (∃ x, getSession [10, 20] 3 = some x ∧ x ∈ [10, 20] ∧
      [10, 20].get? (3 % 2) = some x) ∧
    getGameApi ([] : List Nat) 0 false
        (fun _ => (.error .underMaintenance : Except AppErr Unit))
        (fun _ => .ok ()) (fun _ => .ok ()) (fun _ => .ok ()) =
      (.error .noClientAvailable, 0) :=
  ⟨getSession_claims.1 Nat [] 7 rfl,
   getSession_claims.2.1 Nat [10, 20] 3 (by simp),
   getSession_claims.2.2 Unit Nat [] 0 false _ _ _ _ rfl⟩

theorem compactColumns_eq (enumDef : Option (List (String × JVal)))
    (data : List (String × JVal))
    (hvals : ∀ kv ∈ data, kv.1 ≠ "__ENUM__" → (JVal.asArr? kv.2).isSome = true) :
    compactColumns enumDef data =
      ((data.filter (fun kv => kv.1 ≠ "__ENUM__")).map Prod.fst,
       (data.filter (fun kv => kv.1 ≠ "__ENUM__")).map (colFn enumDef)) := by
  induction data with
  | nil => cases enumDef <;> rfl
  | cons kv rest ih =>
      obtain ⟨column, values⟩ := kv
      have ihrest := ih (fun q hq hne => hvals q (by simp [hq]) hne)
      by_cases hcol : column = "__ENUM__"
      · rw [compactColumns.eq_def]
        simp only [if_pos hcol]
        rw [ihrest]
        have hfil : ((column, values) :: rest).filter
            (fun kv => kv.1 ≠ "__ENUM__") =
            rest.filter (fun kv => kv.1 ≠ "__ENUM__") := by
          rw [List.filter_cons]
          simp [hcol]
        rw [hfil]
      · have hsome : (JVal.asArr? values).isSome = true :=
          hvals (column, values) (by simp) hcol
        obtain ⟨arr, harr⟩ := Option.isSome_iff_exists.mp hsome
        rw [compactColumns.eq_def]
        simp only [if_neg hcol, harr]
        rw [ihrest]
        have hfil : ((column, values) :: rest).filter
            (fun kv => kv.1 ≠ "__ENUM__") =
            (column, values) :: rest.filter (fun kv => kv.1 ≠ "__ENUM__") := by
          rw [List.filter_cons]
          simp [hcol]
        rw [hfil]
        simp only [List.map_cons, Prod.mk.injEq]
        refine ⟨trivial, ?_⟩
        congr 1
        cases enumDef with
        | none => simp [colFn, harr]
        | some enums => simp only [colFn, harr, Option.getD_some]

theorem colFn_length (enumDef : Option (List (String × JVal)))
    (kv : String × JVal) :
    (colFn enumDef kv).length = ((kv.2.asArr?).getD []).length := by
  cases enumDef with
  | none => rfl
  | some enums =>
      simp only [colFn]
      cases hlk : (enums.lookup kv.1).bind JVal.asArr? with
      | none => simp
      | some ev => simp

theorem colFn_get (enumDef : Option (List (String × JVal)))
    (kv : String × JVal) (i : Nat) :
    ((colFn enumDef kv).get? i).getD JVal.null =
      (match ((enumDef.getD []).lookup kv.1).bind JVal.asArr? with
       | none => (((kv.2.asArr?).getD []).get? i).getD JVal.null
       | some ev =>
           enumEntry ev ((((kv.2.asArr?).getD []).get? i).getD JVal.null)) := by
  cases enumDef with
  | none => simp [colFn, List.lookup]
  | some enums =>
      simp only [colFn, Option.getD_some]
      cases hlk : (enums.lookup kv.1).bind JVal.asArr? with
      | none => simp
      | some ev =>
          simp only [List.get?_map]
          cases ((kv.2.asArr?).getD []).get? i with
          | none => simp [enumEntry, JVal.isNull]
          | some a => simp

/-- Claim C8 (amended): when every non-`__ENUM__` value is an array,
`restore_compact_data` returns the spec's row list — row count is the
minimum column length and column order is preserved — with the enum
substitution mapping null to null and a `u64` index to `enums[column][index]`
(null when out of range), while *non-integer entries are kept unchanged*
(the original claim said they produce null). -/
theorem restoreCompactData_spec (data : List (String × JVal))
    (hvals : ∀ kv ∈ data, kv.1 ≠ "__ENUM__" → (JVal.asArr? kv.2).isSome = true) :
    restoreCompactData data = specCompactRows data := by
  rw [restoreCompactData, specCompactRows]
  rw [compactColumns_eq ((data.lookup "__ENUM__").bind JVal.asObj?) data hvals]
  simp only
  have hmaplen :
      ((data.filter (fun kv => kv.1 ≠ "__ENUM__")).map
        (colFn ((data.lookup "__ENUM__").bind JVal.asObj?))).map List.length =
      (data.filter (fun kv => kv.1 ≠ "__ENUM__")).map
        (fun kv => ((kv.2.asArr?).getD []).length) := by
    rw [List.map_map]
    apply List.map_congr_left
    intro kv _
    exact colFn_length _ kv
  rw [hmaplen]
  cases hcols : data.filter (fun kv => kv.1 ≠ "__ENUM__") with
  | nil => simp
  | cons c cs =>
      rw [if_neg (by simp)]
      apply List.map_congr_left
      intro i _
      rw [List.zip_map']
      rw [List.map_map]
      apply List.map_congr_left
      intro kv _
      simp only [Function.comp]
      rw [Prod.mk.injEq]
      refine ⟨rfl, ?_⟩
      rw [colFn_get]

/-- Claim C8 counterexample: a non-integer entry in an enum-mapped column is
kept as-is (here the string `"x"`), not replaced by null as the claim says. -/
theorem restoreCompactData_nonint_counterexample :
    restoreCompactData
        [("status", .arr [.str "x"]),
         ("__ENUM__", .obj [("status", .arr [.str "inactive"])])] =
      [[("status", .str "x")]] ∧
    restoreCompactData
        [("status", .arr [.str "x"]),
         ("__ENUM__", .obj [("status", .arr [.str "inactive"])])] ≠
      [[("status", JVal.null)]] :=
  ⟨rfl, by
    intro h
    have h2 : ([[("status", JVal.str "x")]] : List (List (String × JVal))) =
        [[("status", JVal.null)]] := by
      rw [← h]
      exact rfl
    simp at h2⟩

/-- Witness for the amended claim C8 at the spec's example
`{id:[1,2], status:[0,1], __ENUM__:{status:["inactive","active"]}}`; the
evaluated rows are exactly the spec's expected output. -/
theorem restoreCompactData_spec_witness :
    restoreCompactData
        [("id", .arr [.num 1, .num 2]), ("status", .arr [.num 0, .num 1]),
         ("__ENUM__", .obj [("status", .arr [.str "inactive", .str "active"])])] =
      specCompactRows
        [("id", .arr [.num 1, .num 2]), ("status", .arr [.num 0, .num 1]),
         ("__ENUM__", .obj [("status", .arr [.str "inactive", .str "active"])])] ∧
    restoreCompactData
        [("id", .arr [.num 1, .num 2]), ("status", .arr [.num 0, .num 1]),
         ("__ENUM__", .obj [("status", .arr [.str "inactive", .str "active"])])] =
      [[("id", .num 1), ("status", .str "inactive")],
       [("id", .num 2), ("status", .str "active")]] :=
  ⟨restoreCompactData_spec _
    (by
      intro kv hkv hne
      fin_cases hkv
      · rfl
      · rfl
      · exact absurd rfl hne),
   rfl⟩

/-- Lookup after an ordered insert finds the inserted value. -/
theorem insertOrderedS_lookup_self (m : List (String × JVal)) (k : String) (v : JVal) :
    (insertOrderedS m k v).lookup k = some v := by
  induction m with
  | nil => simp [insertOrderedS, List.lookup_cons]
  | cons kv rest ih =>
      obtain ⟨k2, v2⟩ := kv
      by_cases h : k2 = k
      · subst h
        simp [insertOrderedS, List.lookup_cons]
      · have hb : (k == k2) = false := beq_eq_false_iff_ne.mpr (Ne.symm h)
        simp [insertOrderedS, h, List.lookup_cons, hb, ih]

/-- Ordered insert leaves other keys untouched. -/
theorem insertOrderedS_lookup_ne (m : List (String × JVal)) (k : String) (v : JVal)
    (q : String) (h : q ≠ k) :
    (insertOrderedS m k v).lookup q = m.lookup q := by
  have hbk : (q == k) = false := beq_eq_false_iff_ne.mpr h
  induction m with
  | nil => simp [insertOrderedS, List.lookup_cons, hbk, List.lookup]
  | cons kv rest ih =>
      obtain ⟨k2, v2⟩ := kv
      by_cases h2 : k2 = k
      · subst h2
        simp [insertOrderedS, List.lookup_cons, hbk]
      · simp [insertOrderedS, h2, List.lookup_cons, ih]

theorem contains_eq_false_of_not_mem (l : List String) (a : String) (h : a ∉ l) :
    l.contains a = false := by
  induction l with
  | nil => rfl
  | cons b t ih =>
      simp only [List.mem_cons, not_or] at h
      have hb : (a == b) = false := beq_eq_false_iff_ne.mpr h.1
      rw [List.contains_cons, hb, Bool.false_or]
      exact ih h.2

/-- The final merge prefers `restored_compact_master` and falls back to
`processed_data`. -/
theorem mergeFinal_lookup (pd : List (String × JVal)) :
    ∀ (rcm : List (String × JVal)) (k : String),
    (mergeFinal rcm pd).lookup k = (rcm.lookup k).or (pd.lookup k) := by
  induction pd with
  | nil => intro rcm k; simp [mergeFinal]
  | cons kv rest ih =>
      intro rcm k
      obtain ⟨k1, v1⟩ := kv
      simp only [mergeFinal]
      by_cases hk : (rcm.lookup k1).isSome = true
      · rw [if_pos hk, ih]
        by_cases he : k = k1
        · subst he
          cases hrc : rcm.lookup k with
          | some v => simp
          | none => rw [hrc] at hk; simp at hk
        · have hb : (k == k1) = false := beq_eq_false_iff_ne.mpr he
          simp [List.lookup_cons, hb]
      · rw [if_neg hk, ih]
        by_cases he : k = k1
        · subst he
          cases hrc : rcm.lookup k with
          | some v => rw [hrc] at hk; simp at hk
          | none =>
              rw [insertOrderedS_lookup_self]
              simp [List.lookup_cons]
        · have hb : (k == k1) = false := beq_eq_false_iff_ne.mpr he
          rw [insertOrderedS_lookup_ne _ _ _ _ he]
          simp [List.lookup_cons, hb]

/-- One loop iteration on an entry that is not `eventCards` and does not
restore to it preserves the `eventCards` bindings of both result maps and
never marks `eventCards` as restored-from-compact. -/
theorem nuverseRestoreGo_step (structures : List (String × JVal))
    (key : String) (value : JVal) (rest rcm pd : List (String × JVal))
    (rfc : List String)
    (hkey : key ≠ "eventCards")
    (hnc : (stripCompact key).bind decapitalize ≠ some "eventCards")
    (hrfc : "eventCards" ∉ rfc) :
    ∃ rcm2 pd2 rfc2,
      nuverseRestoreGo structures ((key, value) :: rest) rcm pd rfc =
        nuverseRestoreGo structures rest rcm2 pd2 rfc2 ∧
      rcm2.lookup "eventCards" = rcm.lookup "eventCards" ∧
      pd2.lookup "eventCards" = pd.lookup "eventCards" ∧
      "eventCards" ∉ rfc2 := by
  have hkey2 : ("eventCards" : String) ≠ key := Ne.symm hkey
  cases hsc : stripCompact key with
  | some nko =>
      cases hobj : value.asObj? with
      | some dataMap =>
          cases hdc : decapitalize nko with
          | some newKey =>
              have hnk : ("eventCards" : String) ≠ newKey := by
                intro h
                exact hnc (by rw [hsc, Option.some_bind, hdc, ← h])
              refine ⟨insertOrderedS (insertOrderedS rcm key value) newKey
                  (JVal.arr ((restoreCompactData dataMap).map JVal.obj)),
                pd, newKey :: rfc, ?_, ?_, rfl, ?_⟩
              · simp only [nuverseRestoreGo, hsc, hobj, hdc]
              · rw [insertOrderedS_lookup_ne _ _ _ _ hnk,
                  insertOrderedS_lookup_ne _ _ _ _ hkey2]
              · simp only [List.mem_cons, not_or]
                exact ⟨hnk, hrfc⟩
          | none =>
              refine ⟨insertOrderedS rcm key value, pd, rfc, ?_, ?_, rfl, hrfc⟩
              · simp only [nuverseRestoreGo, hsc, hobj, hdc]
              · exact insertOrderedS_lookup_ne _ _ _ _ hkey2
      | none =>
          refine ⟨insertOrderedS rcm key value, pd, rfc, ?_, ?_, rfl, hrfc⟩
          · simp only [nuverseRestoreGo, hsc, hobj]
          · exact insertOrderedS_lookup_ne _ _ _ _ hkey2
  | none =>
      by_cases hct : rfc.contains key = true
      · refine ⟨rcm, pd, rfc, ?_, rfl, rfl, hrfc⟩
        simp only [nuverseRestoreGo, hsc]
        rw [if_pos hct]
      · cases hsl : structures.lookup key with
        | none =>
            refine ⟨rcm, insertOrderedS pd key value, rfc, ?_, rfl, ?_, hrfc⟩
            · simp only [nuverseRestoreGo, hsc, hsl]
              rw [if_neg hct, if_neg hkey]
            · exact insertOrderedS_lookup_ne _ _ _ _ hkey2
        | some sv =>
            cases hva : value.asArr? with
            | some arr =>
                cases hsa : sv.asArr? with
                | some structArr =>
                    refine ⟨rcm,
                      insertOrderedS pd key (.arr (restoreRows arr structArr)),
                      rfc, ?_, rfl, ?_, hrfc⟩
                    · simp only [nuverseRestoreGo, hsc, hsl, hva, hsa]
                      rw [if_neg hct, if_neg hkey]
                    · exact insertOrderedS_lookup_ne _ _ _ _ hkey2
                | none =>
                    refine ⟨rcm, insertOrderedS pd key value, rfc, ?_, rfl, ?_, hrfc⟩
                    · simp only [nuverseRestoreGo, hsc, hsl, hva, hsa]
                      rw [if_neg hct, if_neg hkey]
                    · exact insertOrderedS_lookup_ne _ _ _ _ hkey2
            | none =>
                refine ⟨rcm, insertOrderedS pd key value, rfc, ?_, rfl, ?_, hrfc⟩
                · simp only [nuverseRestoreGo, hsc, hsl, hva]
                  rw [if_neg hct, if_neg hkey]
                · exact insertOrderedS_lookup_ne _ _ _ _ hkey2

/-- A run of the loop over entries none of which is `eventCards` or restores
to it leaves the `eventCards` bindings of both result maps unchanged. -/
theorem nuverseRestoreGo_lookup_notin (structures : List (String × JVal))
    (items : List (String × JVal)) :
    ∀ (rcm pd : List (String × JVal)) (rfc : List String),
    (∀ kv ∈ items, kv.1 ≠ "eventCards") →
    (∀ kv ∈ items, (stripCompact kv.1).bind decapitalize ≠ some "eventCards") →
    "eventCards" ∉ rfc →
    ((nuverseRestoreGo structures items rcm pd rfc).1.lookup "eventCards" =
      rcm.lookup "eventCards") ∧
    ((nuverseRestoreGo structures items rcm pd rfc).2.lookup "eventCards" =
      pd.lookup "eventCards") := by
  induction items with
  | nil => intro rcm pd rfc _ _ _; exact ⟨rfl, rfl⟩
  | cons kv rest ih =>
      intro rcm pd rfc hk hnc hrfc
      obtain ⟨key, value⟩ := kv
      obtain ⟨rcm2, pd2, rfc2, heq, h1, h2, h3⟩ :=
        nuverseRestoreGo_step structures key value rest rcm pd rfc
          (hk _ (List.mem_cons_self _ _)) (hnc _ (List.mem_cons_self _ _)) hrfc
      rw [heq]
      obtain ⟨ih1, ih2⟩ := ih rcm2 pd2 rfc2
        (fun kv h => hk kv (List.mem_cons_of_mem _ h))
        (fun kv h => hnc kv (List.mem_cons_of_mem _ h)) h3
      exact ⟨ih1.trans h1, ih2.trans h2⟩

/-- A run of the loop over a bundle whose unique `eventCards` entry is raw
binds `eventCards` in `processed_data` to the sorted merge of the raw list
with itself, leaving `restored_compact_master` untouched at that key. -/
theorem nuverseRestoreGo_lookup_main (structures : List (String × JVal))
    (xs : List JVal) (post : List (String × JVal))
    (hstruct : structures.lookup "eventCards" = none)
    (hpost : ∀ kv ∈ post, kv.1 ≠ "eventCards")
    (hncpost : ∀ kv ∈ post, (stripCompact kv.1).bind decapitalize ≠ some "eventCards") :
    ∀ (pre : List (String × JVal)) (rcm pd : List (String × JVal)) (rfc : List String),
    (∀ kv ∈ pre, kv.1 ≠ "eventCards") →
    (∀ kv ∈ pre, (stripCompact kv.1).bind decapitalize ≠ some "eventCards") →
    "eventCards" ∉ rfc →
    ((nuverseRestoreGo structures (pre ++ ("eventCards", JVal.arr xs) :: post)
        rcm pd rfc).1.lookup "eventCards" = rcm.lookup "eventCards") ∧
    ((nuverseRestoreGo structures (pre ++ ("eventCards", JVal.arr xs) :: post)
        rcm pd rfc).2.lookup "eventCards" =
      some (JVal.arr (List.insertionSort (fun a b => cardIdOf a ≤ cardIdOf b)
        (eventCardsMerge xs xs)))) := by
  intro pre
  induction pre with
  | nil =>
      intro rcm pd rfc _ _ hrfc
      have hct : rfc.contains "eventCards" = false :=
        contains_eq_false_of_not_mem rfc _ hrfc
      have hstep : nuverseRestoreGo structures
          ([] ++ ("eventCards", JVal.arr xs) :: post) rcm pd rfc =
          nuverseRestoreGo structures post rcm
            (insertOrderedS (insertOrderedS pd "eventCards" (JVal.arr xs))
              "eventCards"
              (JVal.arr (List.insertionSort (fun a b => cardIdOf a ≤ cardIdOf b)
                (eventCardsMerge xs xs)))) rfc := by
        simp [nuverseRestoreGo, show stripCompact "eventCards" = none from rfl,
          hct, hstruct, insertOrderedS_lookup_self, JVal.asArr?]
        intro h
        exact absurd h hrfc
      rw [List.nil_append] at hstep ⊢
      rw [hstep]
      obtain ⟨h1, h2⟩ := nuverseRestoreGo_lookup_notin structures post _ _ _
        hpost hncpost hrfc
      refine ⟨h1, ?_⟩
      rw [h2, insertOrderedS_lookup_self]
  | cons kv pre2 ih =>
      intro rcm pd rfc hpre hncpre hrfc
      obtain ⟨key, value⟩ := kv
      obtain ⟨rcm2, pd2, rfc2, heq, h1, _, h3⟩ :=
        nuverseRestoreGo_step structures key value
          (pre2 ++ ("eventCards", JVal.arr xs) :: post) rcm pd rfc
          (hpre _ (List.mem_cons_self _ _)) (hncpre _ (List.mem_cons_self _ _)) hrfc
      rw [List.cons_append, heq]
      obtain ⟨ih1, ih2⟩ := ih rcm2 pd2 rfc2
        (fun kv h => hpre kv (List.mem_cons_of_mem _ h))
        (fun kv h => hncpre kv (List.mem_cons_of_mem _ h)) h3
      exact ⟨ih1.trans h1, ih2⟩

/-- Claim C9 (amended): for every master bundle in which `eventCards` appears
exactly once and only in raw form (no other entry carries the key, and no
compact entry restores to it), with no `structures` entry for `eventCards`,
and with every element carrying an `i64` `cardId`, all distinct, the restored
bundle maps `eventCards` to a permutation of the input sorted ascending by
`cardId` with no duplicate `cardId`s.  Each added hypothesis is necessary:
see the counterexample for the regimes it excludes. -/
theorem nuverse_eventCards_sorted
    (pre post : List (String × JVal)) (xs : List JVal)
    (structures : List (String × JVal))
    (hpre : ∀ kv ∈ pre, kv.1 ≠ "eventCards")
    (hpost : ∀ kv ∈ post, kv.1 ≠ "eventCards")
    (hnc : ∀ kv ∈ pre ++ ("eventCards", JVal.arr xs) :: post,
      (stripCompact kv.1).bind decapitalize ≠ some "eventCards")
    (hstruct : structures.lookup "eventCards" = none)
    (hids : ∀ x ∈ xs, ((x.getKey "cardId").bind JVal.asI64?).isSome = true)
    (hnodup : (xs.map cardIdOf).Nodup) :
    ∃ out ys,
      nuverseMasterRestorer (pre ++ ("eventCards", JVal.arr xs) :: post)
        structures = Except.ok out ∧
      out.lookup "eventCards" = some (JVal.arr ys) ∧
      ys.Perm xs ∧
      List.Pairwise (fun a b => cardIdOf a ≤ cardIdOf b) ys ∧
      (ys.map cardIdOf).Nodup := by
  have hmerge : eventCardsMerge xs xs = xs := by
    rw [eventCardsMerge]
    have hnilf : xs.filter (fun x =>
        match (x.getKey "cardId").bind JVal.asI64? with
        | some i =>
            ! (xs.filterMap
                (fun item => (item.getKey "cardId").bind JVal.asI64?)).contains i
        | none => true) = [] := by
      rw [List.filter_eq_nil_iff]
      intro x hx
      obtain ⟨i, hi⟩ := Option.isSome_iff_exists.mp (hids x hx)
      have hmem : i ∈ xs.filterMap
          (fun item => (item.getKey "cardId").bind JVal.asI64?) :=
        List.mem_filterMap.mpr ⟨x, hx, hi⟩
      simp [hi, hmem]
    rw [hnilf, List.nil_append]
  refine ⟨_, List.insertionSort (fun a b => cardIdOf a ≤ cardIdOf b) xs,
    rfl, ?_, ?_, ?_, ?_⟩
  · obtain ⟨h1, h2⟩ := nuverseRestoreGo_lookup_main structures xs post hstruct
      hpost (fun kv h => hnc kv (List.mem_append_right _ (List.mem_cons_of_mem _ h)))
      pre [] [] []
      hpre (fun kv h => hnc kv (List.mem_append_left _ h)) (by simp)
    show (mergeFinal _ _).lookup "eventCards" = _
    rw [mergeFinal_lookup, h1, h2, hmerge]
    simp [List.lookup]
  · exact List.perm_insertionSort _ xs
  · haveI ht : IsTotal JVal (fun a b => cardIdOf a ≤ cardIdOf b) :=
      ⟨fun a b => le_total _ _⟩
    haveI htr : IsTrans JVal (fun a b => cardIdOf a ≤ cardIdOf b) :=
      ⟨fun a b c hab hbc => le_trans hab hbc⟩
    exact List.sorted_insertionSort _ xs
  · exact ((List.perm_insertionSort
      (fun a b => cardIdOf a ≤ cardIdOf b) xs).map cardIdOf).nodup_iff.mpr hnodup

/-- Witness for the amended claim C9: a three-table bundle whose raw
`eventCards` entries have ids `[3,1,2]` restores to an ascending,
duplicate-free list. -/
theorem nuverse_eventCards_sorted_witness :
    ∃ out ys,
      nuverseMasterRestorer
        [("gameCharacters", JVal.arr []),
         ("eventCards", JVal.arr [.obj [("cardId", .num 3)],
           .obj [("cardId", .num 1)], .obj [("cardId", .num 2)]]),
         ("cards", JVal.arr [])] [] = Except.ok out ∧
      out.lookup "eventCards" = some (JVal.arr ys) ∧
      ys.Perm [.obj [("cardId", .num 3)], .obj [("cardId", .num 1)],
        .obj [("cardId", .num 2)]] ∧
      List.Pairwise (fun a b => cardIdOf a ≤ cardIdOf b) ys ∧
      (ys.map cardIdOf).Nodup :=
  nuverse_eventCards_sorted [("gameCharacters", JVal.arr [])]
    [("cards", JVal.arr [])]
    [.obj [("cardId", .num 3)], .obj [("cardId", .num 1)],
     .obj [("cardId", .num 2)]] []
    (by intro kv h; fin_cases h <;> decide)
    (by intro kv h; fin_cases h <;> decide)
    (by intro kv h; fin_cases h <;> decide)
    rfl
    (by intro x hx; fin_cases hx <;> rfl)
    (by decide)

/-- Claim C9 counterexamples, one per regime the amended claim excludes:
(1) `eventCards` present in both compact and raw form: the compact
restoration shadows the raw list entirely (no merge, no sort) and the final
list has cardIds `[2, 1]`, not ascending; (2) raw-only with duplicate
`cardId`s: both entries survive, so two entries share `cardId` 1; (3) an
element without a `cardId`: the merge keeps the original and appends the
processed copy, duplicating the entry verbatim; (4) a `structures` entry for
`eventCards`: the raw array-shaped rows survive the merge (their `cardId`
lookup is `None`), so the restored objects appear alongside them and
duplicate `cardId`s remain. -/
theorem nuverse_eventCards_counterexample :
    (nuverseMasterRestorer
        [("compactEventCards", .obj [("cardId", .arr [.num 2, .num 1])]),
         ("eventCards", .arr [])] [] =
      .ok [("compactEventCards", .obj [("cardId", .arr [.num 2, .num 1])]),
           ("eventCards",
             .arr [.obj [("cardId", .num 2)], .obj [("cardId", .num 1)]])] ∧
     ¬ List.Pairwise (fun a b => cardIdOf a ≤ cardIdOf b)
        [JVal.obj [("cardId", .num 2)], JVal.obj [("cardId", .num 1)]]) ∧
    (nuverseMasterRestorer
        [("eventCards",
          .arr [.obj [("cardId", .num 1)], .obj [("cardId", .num 1)]])] [] =
      .ok [("eventCards",
        .arr [.obj [("cardId", .num 1)], .obj [("cardId", .num 1)]])] ∧
     ¬ (([JVal.obj [("cardId", .num 1)],
        JVal.obj [("cardId", .num 1)]].map cardIdOf).Nodup)) ∧
    (nuverseMasterRestorer [("eventCards", .arr [.obj []])] [] =
      .ok [("eventCards", .arr [.obj [], .obj []])] ∧
     ¬ List.Pairwise (fun a b => a ≠ b) [JVal.obj [], JVal.obj []]) ∧
    (nuverseMasterRestorer
        [("eventCards", .arr [.arr [.num 1], .arr [.num 1]])]
        [("eventCards", .arr [.str "cardId"])] =
      .ok [("eventCards",
        .arr [.arr [.num 1], .arr [.num 1],
          .obj [("cardId", .num 1)], .obj [("cardId", .num 1)]])] ∧
     ¬ (([JVal.arr [.num 1], JVal.arr [.num 1], JVal.obj [("cardId", .num 1)],
        JVal.obj [("cardId", .num 1)]].map cardIdOf).Nodup)) :=
  ⟨⟨rfl, by
      intro h
      have h12 := List.rel_of_pairwise_cons h (List.mem_singleton.mpr rfl)
      simp [cardIdOf, JVal.getKey, List.lookup, JVal.asI64?] at h12⟩,
   ⟨rfl, by decide⟩,
   ⟨rfl, by
      intro h
      exact (List.rel_of_pairwise_cons h (List.mem_singleton.mpr rfl)) rfl⟩,
   ⟨by
      have hgen : ∀ (rows structArr : List JVal),
          nuverseMasterRestorer [("eventCards", JVal.arr rows)]
            [("eventCards", JVal.arr structArr)] =
          Except.ok [("eventCards",
            JVal.arr (List.insertionSort (fun a b => cardIdOf a ≤ cardIdOf b)
              (eventCardsMerge rows (restoreRows rows structArr))))] :=
        fun rows structArr => rfl
      have hrow : restoreRows [JVal.arr [.num 1], JVal.arr [.num 1]]
          [JVal.str "cardId"] =
          [JVal.obj [("cardId", JVal.num 1)], JVal.obj [("cardId", JVal.num 1)]] := by
        simp [restoreRows, restoreDictAux, JVal.isNull, JVal.asArr?, insertOrderedS]
      rw [hgen, hrow]
      rfl, by decide⟩⟩

/-- C6 counterexample: a CP account whose stored `user_id` is the non-empty
string "111" and whose credential yields the derived id "999" comes out of
`parse_account_value` with `user_id = "999"`: the stored value is NOT kept,
because the JWT derivation is attempted unconditionally and overwrites the
field whenever it succeeds. -/
theorem parse_account_overwrite_counterexample :
    (parseAccountValueCP ⟨"111", "dev", "cred"⟩
        (Except.ok "999")).user_id = "999" ∧
    ("111" : String) ≠ "" ∧ ("999" : String) ≠ "111" :=
  ⟨rfl, by decide, by decide⟩

/-- C6 (amended): in the CP arm of `parse_account_value`, derivation of the
user id from the credential token is attempted unconditionally; whenever it
succeeds the derived id replaces the stored `user_id` (empty or not), and
whenever it fails the parsed account is kept exactly as stored. -/
theorem parseAccountValueCP_spec (acc : SekaiAccountCP) :
    (∀ u, parseAccountValueCP acc (Except.ok u) =
      ⟨u, acc.device_id, acc.credential⟩) ∧
    (∀ e, parseAccountValueCP acc (Except.error e) = acc) :=
  ⟨fun _ => rfl, fun _ => rfl⟩

theorem parseAccountValueCP_spec_witness :
    parseAccountValueCP ⟨"", "d", "c"⟩ (Except.ok "42") = ⟨"42", "d", "c"⟩ ∧
    parseAccountValueCP ⟨"7", "d", "c"⟩
        (Except.error (AppErr.cryptoError "x")) = ⟨"7", "d", "c"⟩ :=
  ⟨(parseAccountValueCP_spec ⟨"", "d", "c"⟩).1 "42",
   (parseAccountValueCP_spec ⟨"7", "d", "c"⟩).2 (AppErr.cryptoError "x")⟩


end Sekai
